import Mathlib

/-!
# Verification of `burnman/tools/chemistry.py`

A shallow embedding of the chemical-formula parsing and compositional-algebra
core of the module, together with proofs about the claims of the
specification.  Conventions used throughout:

* Python strings are modelled as `List Char` (with `String` wrappers at the
  interfaces); the regular-expression idioms of the source
  (`re.split`, `re.findall` with the patterns `'[A-Z][^A-Z]*'`,
  `r'\['`, `r'\]'`, `'([0-9][^A-Z]*)'`, `r'(\d+)'`) are modelled by
  character-level functions with the same behaviour on the character classes
  involved (all patterns are pure ASCII classes).
* Numeric amounts are modelled by `ℚ`.  The source keeps exact
  `fractions.Fraction` values during parsing and converts to IEEE doubles
  when they are stored into numpy arrays; the embedding keeps the exact
  rational value throughout, which agrees with the source whenever the value
  is exactly representable, and in particular on every concrete input used
  in the theorems below.  `sympy.nsimplify`, which the source uses to render
  a float back as an exact rational string, is modelled as exact rational
  rendering.
* Python dictionaries are modelled as association lists in insertion order,
  which is how `dict` iterates.
* A Python function that can raise is modelled with `Option`/`Except`; a
  raised exception is `none`/`.error`.
-/

namespace BurnmanChem

/-! ## Character classes of the source's regular expressions -/

/-- The regex class `[A-Z]` (code points 65-90). -/
def isUpperAZ (c : Char) : Bool := 65 ≤ c.toNat && c.toNat ≤ 90

/-- The regex class `[0-9]` (also `\d` for ASCII text; code points 48-57). -/
def isDigit09 (c : Char) : Bool := 48 ≤ c.toNat && c.toNat ≤ 57

/-- Python's `\s` on the ASCII range (as used by `Fraction`'s grammar). -/
def isPySpace (c : Char) : Bool :=
  c.toNat = 32 || c.toNat = 9 || c.toNat = 10 || c.toNat = 13 || c.toNat = 11 || c.toNat = 12

theorem digit_not_upper {c : Char} (h : isDigit09 c = true) : isUpperAZ c = false := by
  simp only [isDigit09, Bool.and_eq_true, decide_eq_true_eq] at h
  simp only [isUpperAZ, Bool.and_eq_false_iff, decide_eq_false_iff_not]
  omega

theorem digit_not_space {c : Char} (h : isDigit09 c = true) : isPySpace c = false := by
  simp only [isDigit09, Bool.and_eq_true, decide_eq_true_eq] at h
  simp only [isPySpace, Bool.or_eq_false_iff, decide_eq_false_iff_not]
  omega

theorem digit_ne_of_toNat {c : Char} (h : isDigit09 c = true) {d : Char}
    (hd : ¬ (48 ≤ d.toNat ∧ d.toNat ≤ 57)) : c ≠ d := by
  simp only [isDigit09, Bool.and_eq_true, decide_eq_true_eq] at h
  intro he
  cases he
  exact hd h

/-! ## `re.split` on a single literal character

`re.split(r'\[', s)` cuts `s` at every occurrence of the character; `n`
occurrences give `n + 1` pieces, so the result is never empty. -/

def splitOnChar (c : Char) : List Char → List (List Char)
  | [] => [[]]
  | d :: ds =>
    match splitOnChar c ds with
    | [] => [[]]
    | p :: ps => if d = c then [] :: p :: ps else (d :: p) :: ps

theorem splitOnChar_ne_nil (c : Char) (s : List Char) : splitOnChar c s ≠ [] := by
  cases s with
  | nil => simp [splitOnChar]
  | cons d ds =>
    simp only [splitOnChar]
    rcases h : splitOnChar c ds with _ | ⟨p, ps⟩
    · simp
    · by_cases hd : d = c <;> simp [hd]

/-! ## `re.findall('[A-Z][^A-Z]*', s)`

The matches are the maximal blocks that start with an uppercase letter and
continue with non-uppercase characters; text before the first uppercase
letter is skipped.  `tokensAux` carries the current block reversed in its
accumulator (the accumulator is empty exactly when no block is open, since
every block starts with its uppercase letter). -/

def tokensAux : List Char → List Char → List (List Char)
  | [], acc => if acc.isEmpty then [] else [acc.reverse]
  | c :: cs, acc =>
    if isUpperAZ c then
      if acc.isEmpty then tokensAux cs [c]
      else acc.reverse :: tokensAux cs [c]
    else
      if acc.isEmpty then tokensAux cs []
      else tokensAux cs (c :: acc)

def findUpperTokens (s : List Char) : List (List Char) := tokensAux s []

/-! ## Decimal numerals -/

def digitVal (c : Char) : ℕ := c.toNat - 48

def digitCharOf (n : ℕ) : Char := Char.ofNat (48 + n)

/-- Value of a digit string, most significant digit first. -/
def digitsVal (s : List Char) : ℕ := s.foldl (fun a c => 10 * a + digitVal c) 0

/-- Parse a non-empty all-digit string; `none` otherwise. -/
def parseNatDigits (s : List Char) : Option ℕ :=
  if s ≠ [] ∧ s.all isDigit09 then some (digitsVal s) else none

/-- Decimal rendering of `n`, with `fuel` bounding the recursion depth
(structural recursion keeps the definition kernel-reducible). -/
def natStrGo : ℕ → ℕ → List Char
  | 0, _ => []
  | fuel + 1, n => if n = 0 then [] else natStrGo fuel (n / 10) ++ [digitCharOf (n % 10)]

def natStr (n : ℕ) : List Char := if n = 0 then ['0'] else natStrGo (n + 1) n

def intStr : ℤ → List Char
  | .ofNat n => natStr n
  | .negSucc m => '-' :: natStr (m + 1)

/-- Model of `str(sympy.nsimplify(x))` on an exactly recovered rational:
sympy prints a `Rational` as `p/q`, or just `p` when the denominator is 1. -/
def ratStr (q : ℚ) : List Char :=
  if q.den = 1 then intStr q.num else intStr q.num ++ '/' :: natStr q.den

/-! ## `fractions.Fraction(string)`

CPython's grammar (`fractions._RATIONAL_FORMAT`): optional surrounding
whitespace, an optional sign, then either `digits [/ digits]` or a decimal
form `digits* [. digits*]` (with at least one digit overall) optionally
followed by an exponent `E[±]digits`.  A zero denominator raises
`ZeroDivisionError`.  Raising is modelled as `none`. -/

def pyFractionExp (mantissa : ℚ) : List Char → Option ℚ
  | [] => some mantissa
  | c :: rest =>
    if c = 'e' ∨ c = 'E' then
      match rest with
      | '+' :: ds => (parseNatDigits ds).map fun e => mantissa * 10 ^ (e : ℤ)
      | '-' :: ds => (parseNatDigits ds).map fun e => mantissa * 10 ^ (-(e : ℤ))
      | ds => (parseNatDigits ds).map fun e => mantissa * 10 ^ (e : ℤ)
    else none

def pyFractionBody (t : List Char) : Option ℚ :=
  let intPart := t.takeWhile isDigit09
  let rest := t.dropWhile isDigit09
  match rest with
  | [] => (parseNatDigits intPart).map fun n => (n : ℚ)
  | '/' :: dpart =>
    match parseNatDigits intPart, parseNatDigits dpart with
    | some n, some d => if d = 0 then none else some ((n : ℚ) / (d : ℚ))
    | _, _ => none
  | '.' :: frac =>
    let decPart := frac.takeWhile isDigit09
    let rest2 := frac.dropWhile isDigit09
    if intPart.isEmpty && decPart.isEmpty then none
    else
      pyFractionExp ((digitsVal intPart : ℚ) + (digitsVal decPart : ℚ) / 10 ^ decPart.length)
        rest2
  | _ =>
    if intPart.isEmpty then none
    else pyFractionExp (digitsVal intPart : ℚ) rest

def pyFraction (s : List Char) : Option ℚ :=
  let t := ((s.dropWhile isPySpace).reverse.dropWhile isPySpace).reverse
  match t with
  | '+' :: r => pyFractionBody r
  | '-' :: r => (pyFractionBody r).map Neg.neg
  | r => pyFractionBody r

/-! ## Formulas as Python dictionaries

A `Formula` is an association list in insertion order with unique keys,
exactly how the source's `dict`/`Counter` objects behave. -/

abbrev Formula := List (String × ℚ)

/-- First-occurrence lookup (Python dictionaries cannot hold duplicate
keys, so on well-formed values this is the dictionary lookup). -/
def lookupAmt (f : Formula) (e : String) : Option ℚ :=
  (f.find? fun p => p.1 = e).map (·.2)

/-- `formula[e]` with the `formula.get(e, 0.0)` default. -/
def amt (f : Formula) (e : String) : ℚ := (lookupAmt f e).getD 0

/-- `d[k] = d.get(k, 0.0) + v`: add into an existing key in place, else
append the new key at the end (dict insertion order). -/
def updateAdd : Formula → String → ℚ → Formula
  | [], e, v => [(e, v)]
  | (k, w) :: rest, e, v =>
    if k = e then (k, w + v) :: rest else (k, w) :: updateAdd rest e v

/-- `d[k] = v`: overwrite an existing key in place, else append. -/
def updateAssign : Formula → String → ℚ → Formula
  | [], e, v => [(e, v)]
  | (k, w) :: rest, e, v =>
    if k = e then (k, v) :: rest else (k, w) :: updateAssign rest e v

/-- `dict(pairs)`: later bindings overwrite earlier ones, first position
is kept. -/
def pyDictOf (l : List (String × ℚ)) : Formula :=
  l.foldl (fun d p => updateAssign d p.1 p.2) []

/-! ## `process_solution_chemistry`

The output aggregate (the attributes the source writes onto the solution
model object). -/

structure SolutionChemistry where
  solution_formulae : List Formula
  n_sites : ℕ
  sites : List (List String)
  site_names : List String
  n_occupancies : ℕ
  site_multiplicities : List (List ℚ)
  endmember_occupancies : List (List ℚ)
  endmember_noccupancies : List (List ℚ)
deriving Repr, DecidableEq

/-- `re.split('([0-9][^A-Z]*)', sp)[0]`: the species name is the part of
the token before its first digit (the match starts at the first digit and,
since a token contains no further uppercase letter, runs to its end). -/
def speciesName (tok : List Char) : String :=
  (tok.takeWhile fun c => !isDigit09 c).asString

/-- The captured group `([0-9][^A-Z]*)` of the same split: the digit-onward
suffix of the token. -/
def speciesPropStr (tok : List Char) : List Char :=
  tok.dropWhile fun c => !isDigit09 c

/-- Proportion of a species token: `Fraction(1.0)` when the token has no
digits, else `Fraction(species_split[1])`. -/
def speciesProp (tok : List Char) : Option ℚ :=
  if speciesPropStr tok = [] then some 1 else pyFraction (speciesPropStr tok)

/-- Replace the first element of a list at position `i`. -/
def modifyAt (g : α → α) : ℕ → List α → List α
  | _, [] => []
  | 0, a :: l => g a :: l
  | n + 1, a :: l => a :: modifyAt g n l

/-- Modify the last element of a list (the occupancy row of the endmember
currently being parsed). -/
def modifyLast (g : α → α) : List α → List α
  | [] => []
  | [a] => [g a]
  | a :: b :: l => a :: modifyLast g (b :: l)

/-- Aggregate parsing state: the per-site species lists, the occupancy rows
of all endmembers parsed so far (the last row is the endmember currently
being parsed), and the running bulk formula of the current endmember. -/
structure SiteState where
  sites : List (List String)
  occs : List (List (List ℚ))
  formula : Formula
deriving Repr

/-- One species token on site `iSite` with multiplicity `mult`: lines
297-318 of the source.  A first-seen species opens a new occupancy column,
back-filling zeros into every already-parsed endmember's row. -/
def processSpecies (iSite : ℕ) (mult : ℚ) (st : SiteState) (tok : List Char) :
    Option SiteState :=
  match speciesProp tok with
  | none => none
  | some prop =>
    let name := speciesName tok
    let formula := updateAdd st.formula name (mult * prop)
    let siteList := st.sites.getD iSite []
    if name ∈ siteList then
      let iEl := siteList.indexOf name
      some ⟨st.sites, modifyLast (modifyAt (fun sl => sl.set iEl prop) iSite) st.occs,
        formula⟩
    else
      let iEl := siteList.length
      let occs := st.occs.map (modifyAt (· ++ [(0 : ℚ)]) iSite)
      some ⟨modifyAt (· ++ [name]) iSite st.sites,
        modifyLast (modifyAt (fun sl => sl.set iEl prop) iSite) occs, formula⟩

/-- In Python 3, `str(filter(None, site_split[1]))` does not recover the
string (that was Python 2 behaviour): it is the `repr` of a filter object,
`"<filter object at 0x…>"`.  The address varies from run to run but is
printed in lowercase hex, so the repr never contains an uppercase
character — the only property the subsequent `re.findall('[A-Z][^A-Z]*', …)`
can observe.  Any representative with that property gives the same parse. -/
def pyFilterRepr : List Char := "<filter object at 0x7f32a1b04c50>".data

/-- `s.replace(old, '', 1)`: drop the first occurrence of `old` (for an
empty `old`, Python inserts an empty string, leaving `s` unchanged). -/
def replaceFirst : List Char → List Char → List Char
  | [], _ => []
  | c :: cs, pat =>
    if pat.isPrefixOf (c :: cs) then (c :: cs).drop pat.length
    else c :: replaceFirst cs pat

/-- Lines 320-331 of the source: the species-after-site loop.  Its scan
string is the filter-object repr with the first occurrence of the
multiplicity string removed, so in Python 3 the loop never runs (see
`pyFilterRepr`); the body is still translated faithfully
(`re.split(r'(\d+)', t)` with empties filtered out groups the token into
maximal digit/non-digit runs). -/
def postSiteFold (multStr : List Char) (f : Formula) : Formula :=
  (findUpperTokens (replaceFirst pyFilterRepr multStr)).foldl
    (fun f t =>
      let parts := (t.splitBy fun a b => isDigit09 a = isDigit09 b).filter (· ≠ [])
      match parts with
      | [] => f
      | [n] => updateAdd f n.asString 1
      | n :: d :: _ => updateAdd f n.asString ((parseNatDigits d).getD 0 : ℚ))
    f

/-- One bracketed site group (lines 284-331): split the chunk at `']'`
(`site_split[1]` raises `IndexError` when the chunk has no `']'`), read the
multiplicity as the chunk's tail up to its first uppercase letter, process
each species token, then run the (dead) after-site loop.  Returns the new
state together with the site's multiplicity. -/
def processSite (st : SiteState) (iSite : ℕ) (chunk : List Char) :
    Option (SiteState × ℚ) :=
  match splitOnChar ']' chunk with
  | [] => none
  | [_] => none
  | occStr :: tailStr :: _ =>
    let multStr := tailStr.takeWhile fun c => !isUpperAZ c
    match (if multStr = [] then some 1 else pyFraction multStr) with
    | none => none
    | some mult =>
      match (findUpperTokens occStr).foldlM (processSpecies iSite mult) st with
      | none => none
      | some st => some (⟨st.sites, st.occs, postSiteFold multStr st.formula⟩, mult)

/-- Full parsing state across endmembers. -/
structure PState where
  sites : List (List String)
  occs : List (List (List ℚ))
  mults : List (List ℚ)
  formulae : List Formula
deriving Repr

/-- One endmember (lines 279-331): append a fresh occupancy row (zeros at
the current site widths), then process the chunks after each `'['` in
order. -/
def processEndmember (st : PState) (f : List Char) : Option PState :=
  let chunks := (splitOnChar '[' f).drop 1
  let occs0 := st.occs ++ [st.sites.map fun s => List.replicate s.length (0 : ℚ)]
  match chunks.enum.foldlM
      (fun (acc : SiteState × List ℚ) (ic : ℕ × List Char) =>
        match processSite acc.1 ic.1 ic.2 with
        | none => none
        | some rm => some (rm.1, acc.2 ++ [rm.2]))
      (⟨st.sites, occs0, []⟩, []) with
  | none => none
  | some sm => some ⟨sm.1.sites, sm.1.occs, st.mults ++ [sm.2], st.formulae ++ [sm.1.formula]⟩

/-- `string.ascii_uppercase[i]`. -/
def ucaseLetter (i : ℕ) : String := (Char.ofNat (65 + i)).toString

/-- The message of the explicit site-count check (lines 268-270). -/
def siteCountMsg : String := "All formulae must have the same number of distinct sites."

/-- Number of `'['` characters — `f.count('[')`. -/
def countBrackets (f : String) : ℕ := (f.data.filter (· = '[')).length

/-- `process_solution_chemistry` (lines 263-360).  The source receives an
object with a `formulas` attribute and writes the results back onto it; the
embedding takes the formula list and returns the attribute record.  Raised
exceptions become `.error`: the explicit site-count check, and the implicit
`IndexError`/`ValueError` paths inside parsing (no `']'` in a chunk, an
unparseable `Fraction` string, or a 27th site reaching past
`ascii_uppercase`). -/
def process_solution_chemistry (formulas : List String) :
    Except String SolutionChemistry :=
  match formulas with
  | [] => .error "IndexError: empty formula list"
  | f0 :: _ =>
    let nSites := countBrackets f0
    if ¬ formulas.all (fun f => countBrackets f = nSites) then
      .error siteCountMsg
    else
      match formulas.foldlM (fun st f => processEndmember st f.data)
          (⟨List.replicate nSites [], [], [], []⟩ : PState) with
      | none => .error "ValueError: unparseable site formula"
      | some st =>
        if st.sites.enum.any (fun p => 26 ≤ p.1 ∧ p.2 ≠ []) then
          .error "IndexError: string index out of range"
        else
          .ok
            { solution_formulae := st.formulae
              n_sites := nSites
              sites := st.sites
              site_names :=
                (st.sites.enum.map fun p =>
                  p.2.map fun sp => sp ++ "_" ++ ucaseLetter p.1).flatten
              n_occupancies := (st.sites.map List.length).sum
              site_multiplicities :=
                (st.occs.zip st.mults).map fun rm =>
                  ((rm.1.zip rm.2).map fun sm =>
                    List.replicate sm.1.length sm.2).flatten
              endmember_occupancies := st.occs.map List.flatten
              endmember_noccupancies :=
                (st.occs.map List.flatten).zipWith
                  (fun o m => o.zipWith (· * ·) m)
                  ((st.occs.zip st.mults).map fun rm =>
                    ((rm.1.zip rm.2).map fun sm =>
                      List.replicate sm.1.length sm.2).flatten) }

instance {ε α : Type} [DecidableEq ε] [DecidableEq α] : DecidableEq (Except ε α) := fun a b =>
  match a, b with
  | .ok x, .ok y => decidable_of_iff (x = y) (by simp)
  | .error x, .error y => decidable_of_iff (x = y) (by simp)
  | .ok _, .error _ => isFalse (by simp)
  | .error _, .ok _ => isFalse (by simp)

/-! ## The canonical element order (lines 56-78 of the source) -/

def IUPAC_element_order : List String :=
  ["v", "Og", "Rn", "Xe", "Kr", "Ar", "Ne", "He",
   "Fr", "Cs", "Rb", "K", "Na", "Li",
   "Ra", "Ba", "Sr", "Ca", "Mg", "Be",
   "Lr", "No", "Md", "Fm", "Es", "Cf", "Bk", "Cm",
   "Am", "Pu", "Np", "U", "Pa", "Th", "Ac",
   "Lu", "Yb", "Tm", "Er", "Ho", "Dy", "Tb", "Gd",
   "Eu", "Sm", "Pm", "Nd", "Pr", "Ce", "La",
   "Y", "Sc",
   "Rf", "Hf", "Zr", "Ti",
   "Db", "Ta", "Nb", "V",
   "Sg", "W", "Mo", "Cr",
   "Bh", "Re", "Tc", "Mn",
   "Hs", "Os", "Ru", "Fe",
   "Mt", "Ir", "Rh", "Co",
   "Ds", "Pt", "Pd", "Ni",
   "Rg", "Au", "Ag", "Cu",
   "Cn", "Hg", "Cd", "Zn",
   "Nh", "Tl", "In", "Ga", "Al", "B",
   "Fl", "Pb", "Sn", "Ge", "Si", "C",
   "Mc", "Bi", "Sb", "As", "P", "N",
   "Lv", "Po", "Te", "Se", "S", "O",
   "H",
   "Ts", "At", "I", "Br", "Cl", "F"]

/-! ## `formula_to_string` (lines 501-533) -/

/-- One element's contribution to the canonical string: the bare symbol if
the amount is within `1e-12` of 1, else symbol followed by
`str(nsimplify(amount))`. -/
def amountBlock (e : String) (v : ℚ) : String :=
  if |v - 1| < 1 / 10 ^ 12 then e else e ++ (ratStr v).asString

/-- Amounts of magnitude at most `1e-12` are suppressed entirely. -/
def visibleIn (formula : Formula) (e : String) : Bool :=
  (lookupAmt formula e).isSome && decide (1 / 10 ^ 12 < |amt formula e|)

def formula_to_string (formula : Formula) : String :=
  String.join
    ((IUPAC_element_order.filter (visibleIn formula)).map fun e =>
      amountBlock e (amt formula e))
  ++ String.join
    (((formula.map Prod.fst).filter fun e =>
        !IUPAC_element_order.contains e && visibleIn formula e).map fun e =>
      amountBlock e (amt formula e))

/-! ## `sort_element_list_to_IUPAC_order` (lines 536-550) -/

def sort_element_list_to_IUPAC_order (element_list : List String) :
    Except String (List String) :=
  let sorted_list := IUPAC_element_order.filter fun e => element_list.contains e
  if sorted_list.length = element_list.length then .ok sorted_list
  else .error "AssertionError: sorted list differs in length from the input"

/-! ## `sum_formulae` and `formula_mass` (lines 111-156)

The atomic-mass table is loaded at startup from a data file outside the
embedded source (`read_masses`); it enters as a parameter, a partial map
from element symbols to masses (`none` models the `KeyError` of a missing
element). -/

/-- `Counter.update` with a dict argument: add counts of existing keys in
place, append new keys in iteration order. -/
def counterUpdate (acc : Formula) (f : Formula) : Formula :=
  f.foldl (fun a p => updateAdd a p.1 p.2) acc

/-- `sum_formulae`; `amounts = none` is the default weight 1 for every
formula, and a length mismatch is the `assert` (modelled as `none`). -/
def sum_formulae (formulae : List Formula) (amounts : Option (List ℚ)) :
    Option Formula :=
  match amounts with
  | none =>
    some (((formulae.map fun f => f.map fun p => (p.1, (1 : ℚ) * p.2)).foldl
      counterUpdate []))
  | some ams =>
    if formulae.length = ams.length then
      some ((((formulae.zip ams).map fun fa =>
        fa.1.map fun p => (p.1, fa.2 * p.2)).foldl counterUpdate []))
    else none

/-- `formula_mass`: `sum(formula[e] * atomic_masses[e] for e in formula)`;
a missing mass-table entry is a `KeyError` (`none`). -/
def formula_mass (atomic_masses : String → Option ℚ) : Formula → Option ℚ
  | [] => some 0
  | (e, n) :: rest => do
    let m ← atomic_masses e
    let s ← formula_mass atomic_masses rest
    pure (n * m + s)

/-- A concrete fragment of the atomic-mass table (`atomic_masses.dat`) for
witnesses: Mg 24.305, O 15.999, Si 28.085 g/mol. -/
def sampleMasses : String → Option ℚ := fun e =>
  if e = "Mg" then some (24305 / 1000)
  else if e = "O" then some (15999 / 1000)
  else if e = "Si" then some (28085 / 1000)
  else none

/-! ## `site_occupancies_to_strings` (lines 363-448)

The `site_multiplicities` argument is passed through `np.array`; its rank
determines the branch taken, so the embedding receives it as a sum of the
1D and 2D cases plus a marker for every other rank (rank 0 and rank ≥ 3
arrays reach the final `else` and raise before their contents are ever
read).  Arrays are taken to be rectangular, as numpy requires. -/

inductive SiteMultArg where
  | oneD (v : List ℚ)
  | twoD (m : List (List ℚ))
  | otherRank
deriving Repr

/-- numpy's shape of a rectangular 2D array. -/
def shape2 (m : List (List ℚ)) : ℕ × ℕ := (m.length, (m.headD []).length)

def shapeStr (s : ℕ × ℕ) : String :=
  "(" ++ (natStr s.1).asString ++ ", " ++ (natStr s.2).asString ++ ")"

def multMsg1 : String :=
  "Site multiplicities should either be given on a per-site basis or a per-species basis"

def multMsg2Head : String :=
  "If site_multiplicities is 2D, it should have the same shape as endmember_occupancies. They currently have shapes "

def multMsg2 (sm so : ℕ × ℕ) : String :=
  multMsg2Head ++ shapeStr sm ++ " and " ++ shapeStr so ++ "."

def multMsg3 : String := "Site multiplicities should either be 1D or 2D."

/-- The per-endmember rendering loop (lines 433-447): slice the occupancy
row per site, take the multiplicity from the site's first occupancy column,
normalize the slice to sum 1, and render the slice through
`formula_to_string`. -/
def renderSitesGo (siteSpeciesNames : List (List String)) (mbrOcc multRow : List ℚ)
    (i : ℕ) : String :=
  match siteSpeciesNames with
  | [] => ""
  | site :: rest =>
    let amounts := (mbrOcc.drop i).take site.length
    let mult := multRow.getD i 0
    let multStr := if |mult - 1| < 1 / 10 ^ 12 then "" else (ratStr mult).asString
    let amounts := amounts.map (· / amounts.sum)
    let site_occupancy := formula_to_string (pyDictOf (site.zip amounts))
    "[" ++ site_occupancy ++ "]" ++ multStr ++ renderSitesGo rest mbrOcc multRow (i + site.length)

def site_occupancies_to_strings (site_species_names : List (List String))
    (site_multiplicities : SiteMultArg) (endmember_occupancies : List (List ℚ)) :
    Except String (List String) := do
  let n_endmembers := endmember_occupancies.length
  let mults2d : List (List ℚ) ←
    match site_multiplicities with
    | .oneD v =>
      if site_species_names.length = v.length then
        -- per-site: repeat each site's multiplicity for each of its species
        pure (List.replicate n_endmembers
          (((site_species_names.zip v).map fun sv =>
            List.replicate sv.1.length sv.2).flatten))
      else
        match endmember_occupancies with
        | [] => .error "IndexError: endmember_occupancies is empty"
        | r0 :: _ =>
          if r0.length ≠ v.length then .error multMsg1
          else pure (List.replicate n_endmembers v)  -- per-species
    | .twoD m =>
      if shape2 m ≠ shape2 endmember_occupancies then
        .error (multMsg2 (shape2 m) (shape2 endmember_occupancies))
      else pure m
    | .otherRank => .error multMsg3
  pure (endmember_occupancies.enum.map fun p =>
    renderSitesGo site_species_names p.2 (mults2d.getD p.1 []) 0)

/-! ## Compositional arrays (lines 451-498) -/

/-- `compositional_array`: discover the element order first-seen across the
formula list, then build the dense matrix. -/
def discoverElements (formulae : List Formula) : List String :=
  formulae.foldl
    (fun els f => f.foldl (fun els p => if p.1 ∈ els then els else els ++ [p.1]) els) []

def elementAssertMsg : String := "AssertionError: element not in the supplied element list"

/-- One formula's dense row: iterate the keys in order, asserting each is
in the element list and writing the amount at the element's index. -/
def ordered_row (elements : List String) : Formula → List ℚ → Except String (List ℚ)
  | [], row => .ok row
  | p :: rest, row =>
    if p.1 ∈ elements then
      ordered_row elements rest (row.set (elements.indexOf p.1) p.2)
    else .error elementAssertMsg

/-- `ordered_compositional_array`: one dense row per formula (starting from
zeros); a key outside the supplied element list is the `assert` (fatal). -/
def ordered_compositional_array : List Formula → List String →
    Except String (List (List ℚ))
  | [], _ => .ok []
  | f :: rest, elements =>
    match ordered_row elements f (List.replicate elements.length (0 : ℚ)),
        ordered_compositional_array rest elements with
    | .ok row, .ok rows => .ok (row :: rows)
    | .error e, _ => .error e
    | .ok _, .error e => .error e

/-- A successful `ordered_compositional_array` certifies every key of every
formula to be in the element list (the `assert` of lines 493-495). -/
theorem ordered_row_keys (elements : List String) (f : Formula) (row0 row : List ℚ)
    (h : ordered_row elements f row0 = .ok row) : ∀ p ∈ f, p.1 ∈ elements := by
  induction f generalizing row0 with
  | nil => simp
  | cons p rest ih =>
    intro q hq
    simp only [ordered_row] at h
    by_cases hp : p.1 ∈ elements
    · rw [if_pos hp] at h
      rcases List.mem_cons.mp hq with rfl | hq'
      · exact hp
      · exact ih _ h q hq'
    · rw [if_neg hp] at h
      exact absurd h (by simp)

theorem ordered_array_keys (formulae : List Formula) (elements : List String)
    (rows : List (List ℚ))
    (h : ordered_compositional_array formulae elements = .ok rows) :
    ∀ f ∈ formulae, ∀ p ∈ f, p.1 ∈ elements := by
  induction formulae generalizing rows with
  | nil => simp
  | cons f rest ih =>
    intro g hg p hp
    simp only [ordered_compositional_array] at h
    rcases h1 : ordered_row elements f (List.replicate elements.length (0 : ℚ)) with e | row
    · rw [h1] at h
      exact absurd h (by simp)
    · rw [h1] at h
      rcases h2 : ordered_compositional_array rest elements with e | rows'
      · rw [h2] at h
        exact absurd h (by simp)
      · rw [h2] at h
        rcases List.mem_cons.mp hg with rfl | hg'
        · exact ordered_row_keys elements g _ row h1 p hp
        · exact ih rows' h2 g hg' p hp

def compositional_array (formulae : List Formula) :
    Except String (List (List ℚ)) × List String :=
  let elements := discoverElements formulae
  (ordered_compositional_array formulae elements, elements)

/-! ## Exact linear algebra for the potential solver

`scipy.linalg.lu` and `np.linalg.lstsq` are external numeric routines; they
are modelled exactly over `ℚ`. -/

def dotQ (a b : List ℚ) : ℚ := ((a.zip b).map fun p => p.1 * p.2).sum

def vecSub (a b : List ℚ) : List ℚ := a.zipWith (· - ·) b

def scaleVec (c : ℚ) (v : List ℚ) : List ℚ := v.map (c * ·)

def transposeQ (m : List (List ℚ)) : List (List ℚ) :=
  (List.range (m.headD []).length).map fun j => m.map fun r => r.getD j 0

def matVec (m : List (List ℚ)) (v : List ℚ) : List ℚ := m.map fun r => dotQ r v

/-- The `U` factor of `scipy.linalg.lu` with partial pivoting, computed
exactly: at each step take the row whose leading entry has the largest
absolute value (first such row, as LAPACK does), eliminate the leading
column from the others, and recurse; an all-zero leading column skips the
elimination.  `U` has `min(rows, cols)` rows. -/
def luUGo : ℕ → List (List ℚ) → List (List ℚ)
  | 0, _ => []
  | fuel + 1, rows =>
    match rows with
    | [] => []
    | r0 :: _ =>
      if r0.isEmpty then []
      else
        let heads := rows.map fun r => |r.headD 0|
        let mx := heads.foldl max 0
        let p := heads.findIdx fun h => h = mx
        let pr := rows.getD p []
        let rest := rows.eraseIdx p
        let ph := pr.headD 0
        let elim := if ph = 0 then rest
          else rest.map fun r => vecSub r (scaleVec (r.headD 0 / ph) pr)
        pr :: (luUGo fuel (elim.map List.tail)).map ((0 : ℚ) :: ·)

def luU (m : List (List ℚ)) : List (List ℚ) := luUGo m.length m

/-- Exact Gaussian elimination on an augmented square system; `none` when
the matrix is singular. -/
def gaussElim : ℕ → List (List ℚ) → Option (List ℚ)
  | 0, _ => some []
  | fuel + 1, rows =>
    match rows with
    | [] => some []
    | _ :: _ => do
      let p ← rows.findIdx? fun r => r.headD 0 ≠ 0
      let pr := rows.getD p []
      let rest := rows.eraseIdx p
      let ph := pr.headD 0
      let reduced := rest.map fun r => vecSub r.tail (scaleVec (r.headD 0 / ph) pr.tail)
      let xs ← gaussElim fuel reduced
      let x0 := (pr.tail.getLastD 0 - dotQ pr.tail.dropLast xs) / ph
      pure (x0 :: xs)

def gaussSolve (m : List (List ℚ)) (b : List ℚ) : Option (List ℚ) :=
  gaussElim m.length ((m.zip b).map fun rb => rb.1 ++ [rb.2])

/-- Exact model of `np.linalg.lstsq(A, B)` for the full-column-rank case —
the only case reachable in `chemical_potentials` once the LU independence
check has passed.  Per right-hand side: the unique least-squares solution
through the normal equations, and the residual sum of squares; numpy
returns the residual array only when the system is overdetermined
(`rows > cols`) and of full rank, else an empty array.  The rank-deficient
case (numpy's SVD minimum-norm solution) is out of reach and modelled as
`none`. -/
def np_linalg_lstsq (A : List (List ℚ)) (Bs : List (List ℚ)) :
    Option (List (List ℚ) × List ℚ) := do
  let At := transposeQ A
  let AtA := At.map (matVec At)
  let solutions ← Bs.mapM fun b => gaussSolve AtA (matVec At b)
  let residuals :=
    if (A.headD []).length < A.length then
      (Bs.zip solutions).map fun bx =>
        ((vecSub bx.1 (matVec A bx.2)).map fun t => t * t).sum
    else []
  pure (solutions, residuals)

/-- `np.around(x, 10)`: round to 10 decimal places, ties to even. -/
def roundHalfEven (q : ℚ) : ℤ :=
  let f := ⌊q⌋
  let r := q - f
  if r < 1 / 2 then f
  else if 1 / 2 < r then f + 1
  else if f % 2 = 0 then f else f + 1

def np_around10 (q : ℚ) : ℚ := (roundHalfEven (q * 10 ^ 10) : ℤ) / 10 ^ 10

/-! ## `chemical_potentials` (lines 619-687)

Assemblage members are consumed through a narrow contract only: a plain
mineral contributes its stored formula and its Gibbs energy, a solid
solution contributes its endmembers' formulas and partial Gibbs energies
(the `isinstance(mineral, SolidSolution)` branch). -/

inductive Material where
  | mineral (formula : Formula) (gibbs : ℚ)
  | solution (endmemberFormulae : List Formula) (gibbsValues : List ℚ)
deriving Repr

def endmemberFormulaeOf (assemblage : List Material) : List Formula :=
  assemblage.foldl
    (fun l m => match m with
      | .mineral f _ => l ++ [f]
      | .solution fs _ => l ++ fs) []

def endmemberPotentialsOf (assemblage : List Material) : List ℚ :=
  assemblage.foldl
    (fun l m => match m with
      | .mineral _ g => l ++ [g]
      | .solution _ gs => l ++ gs) []

def luCheckMsg : String :=
  "AssertionError: Endmember compositions do not form an independent set of basis vectors"

def residualMsg : String :=
  "AssertionError: Component not defined by prescribed assemblage"

def chemical_potentials (assemblage : List Material) (component_formulae : List Formula) :
    Except String (List ℚ) :=
  let endmember_formulae := endmemberFormulaeOf assemblage
  let endmember_potentials := endmemberPotentialsOf assemblage
  let elements := discoverElements endmember_formulae
  match ordered_compositional_array endmember_formulae elements with
  | .error e => .error e
  | .ok endmember_compositions =>
    let u := luU endmember_compositions
    let rowsq := u.map fun r => (r.map fun x => x * x).sum
    match rowsq.min? with
    | none => .error "ValueError: min of an empty sequence"
    | some mn =>
      if ¬ (1 / 10 ^ 6 < mn) then .error luCheckMsg
      else
        match ordered_compositional_array component_formulae elements with
        | .error e => .error e
        | .ok component_compositions =>
          match np_linalg_lstsq (transposeQ endmember_compositions)
              component_compositions with
          | none => .error "LinAlgError: rank-deficient system, unreachable after the LU check"
          | some p =>
            if ¬ p.2.all (fun e => e < 1 / 10 ^ 10) then .error residualMsg
            else
              .ok ((p.1.map fun r => r.map np_around10).map fun r =>
                dotQ r endmember_potentials)

/-! ## Round-trip of numerals: `pyFraction (ratStr q) = some q` -/

theorem digitCharOf_isDigit {n : ℕ} (h : n < 10) : isDigit09 (digitCharOf n) = true := by
  interval_cases n <;> decide

theorem digitVal_digitCharOf {n : ℕ} (h : n < 10) : digitVal (digitCharOf n) = n := by
  interval_cases n <;> decide

theorem foldl_digits_append (xs : List Char) (d : Char) (acc : ℕ) :
    (xs ++ [d]).foldl (fun a c => 10 * a + digitVal c) acc =
      10 * xs.foldl (fun a c => 10 * a + digitVal c) acc + digitVal d := by
  rw [List.foldl_append]
  rfl

theorem natStrGo_spec : ∀ fuel n, n < fuel →
    (natStrGo fuel n).all isDigit09 = true ∧
    (∀ acc, (natStrGo fuel n).foldl (fun a c => 10 * a + digitVal c) acc =
      acc * 10 ^ (natStrGo fuel n).length + n) := by
  intro fuel
  induction fuel with
  | zero => intro n h; omega
  | succ fuel ih =>
    intro n h
    by_cases h0 : n = 0
    · subst h0
      simp [natStrGo]
    · have hdiv : n / 10 < fuel := by
        have h1 : n / 10 < n := Nat.div_lt_self (by omega) (by omega)
        omega
      obtain ⟨hall, hval⟩ := ih (n / 10) hdiv
      have hstep : natStrGo (fuel + 1) n
          = natStrGo fuel (n / 10) ++ [digitCharOf (n % 10)] := by
        simp [natStrGo, h0]
      constructor
      · rw [hstep, List.all_append]
        simp [hall, digitCharOf_isDigit (Nat.mod_lt n (by omega))]
      · intro acc
        rw [hstep, foldl_digits_append, hval acc, List.length_append,
          digitVal_digitCharOf (Nat.mod_lt n (by omega))]
        simp only [List.length_cons, List.length_nil]
        rw [pow_succ]
        have := Nat.div_add_mod n 10
        ring_nf
        omega

theorem natStr_all_digits (n : ℕ) : (natStr n).all isDigit09 = true := by
  by_cases h : n = 0
  · subst h; decide
  · unfold natStr
    rw [if_neg h]
    exact (natStrGo_spec (n + 1) n (by omega)).1

theorem natStr_ne_nil (n : ℕ) : natStr n ≠ [] := by
  unfold natStr
  by_cases h : n = 0
  · simp [h]
  · rw [if_neg h]
    have := (natStrGo_spec (n + 1) n (by omega)).2 0
    intro hnil
    rw [hnil] at this
    simp at this
    omega

theorem digitsVal_natStr (n : ℕ) : digitsVal (natStr n) = n := by
  unfold natStr digitsVal
  by_cases h : n = 0
  · simp [h, digitVal]
  · rw [if_neg h]
    have := (natStrGo_spec (n + 1) n (by omega)).2 0
    simpa using this

theorem parseNatDigits_natStr (n : ℕ) : parseNatDigits (natStr n) = some n := by
  unfold parseNatDigits
  rw [if_pos ⟨natStr_ne_nil n, natStr_all_digits n⟩, digitsVal_natStr]

/-- Character inventory of `ratStr`: digits, `'-'` and `'/'` only. -/
theorem ratStr_chars (q : ℚ) :
    ∀ c ∈ ratStr q, isDigit09 c = true ∨ c = '-' ∨ c = '/' := by
  intro c hc
  unfold ratStr intStr at hc
  have hnat : ∀ m, c ∈ natStr m → isDigit09 c = true := fun m hm => by
    have := natStr_all_digits m
    rw [List.all_eq_true] at this
    exact this c hm
  by_cases hden : q.den = 1
  · rw [if_pos hden] at hc
    rcases hq : q.num with m | m <;> rw [hq] at hc
    · exact Or.inl (hnat _ hc)
    · rcases List.mem_cons.mp hc with rfl | hc'
      · exact Or.inr (Or.inl rfl)
      · exact Or.inl (hnat _ hc')
  · rw [if_neg hden] at hc
    rcases List.mem_append.mp hc with hc' | hc'
    · rcases hq : q.num with m | m <;> rw [hq] at hc'
      · exact Or.inl (hnat _ hc')
      · rcases List.mem_cons.mp hc' with rfl | hc''
        · exact Or.inr (Or.inl rfl)
        · exact Or.inl (hnat _ hc'')
    · rcases List.mem_cons.mp hc' with rfl | hc''
      · exact Or.inr (Or.inr rfl)
      · exact Or.inl (hnat _ hc'')

theorem ratStr_no_space (q : ℚ) : (ratStr q).all (fun c => !isPySpace c) = true := by
  rw [List.all_eq_true]
  intro c hc
  rcases ratStr_chars q c hc with h | h | h
  · simp [digit_not_space h]
  · subst h; decide
  · subst h; decide

theorem ratStr_no_upper (q : ℚ) : (ratStr q).all (fun c => !isUpperAZ c) = true := by
  rw [List.all_eq_true]
  intro c hc
  rcases ratStr_chars q c hc with h | h | h
  · simp [digit_not_upper h]
  · subst h; decide
  · subst h; decide

theorem ratStr_not_mem (q : ℚ) (d : Char) (hd : ¬ (48 ≤ d.toNat ∧ d.toNat ≤ 57))
    (h1 : d ≠ '-') (h2 : d ≠ '/') : d ∉ ratStr q := by
  intro hmem
  rcases ratStr_chars q d hmem with h | h | h
  · simp only [isDigit09, Bool.and_eq_true, decide_eq_true_eq] at h
    exact hd h
  · exact h1 h
  · exact h2 h

theorem dropWhile_eq_self_of_all {p : Char → Bool} {l : List Char}
    (h : l.all (fun c => !p c) = true) : l.dropWhile p = l := by
  cases l with
  | nil => rfl
  | cons c cs =>
    rw [List.all_cons, Bool.and_eq_true] at h
    rw [List.dropWhile_cons_of_neg]
    simp only [Bool.not_eq_true'] at h
    rw [h.1]
    exact Bool.false_ne_true

theorem strip_eq_self_of_no_space {l : List Char}
    (h : l.all (fun c => !isPySpace c) = true) :
    ((l.dropWhile isPySpace).reverse.dropWhile isPySpace).reverse = l := by
  rw [dropWhile_eq_self_of_all h, dropWhile_eq_self_of_all (by simpa using h),
    List.reverse_reverse]

theorem takeWhile_eq_self_of_all {p : Char → Bool} {l : List Char}
    (h : l.all p = true) : l.takeWhile p = l := by
  induction l with
  | nil => rfl
  | cons c cs ih =>
    rw [List.all_cons, Bool.and_eq_true] at h
    rw [List.takeWhile_cons_of_pos h.1, ih h.2]

theorem dropWhile_eq_nil_of_all {p : Char → Bool} {l : List Char}
    (h : l.all p = true) : l.dropWhile p = [] := by
  induction l with
  | nil => rfl
  | cons c cs ih =>
    rw [List.all_cons, Bool.and_eq_true] at h
    rw [List.dropWhile_cons_of_pos h.1, ih h.2]

theorem takeWhile_append_all {p : Char → Bool} {xs : List Char} (ys : List Char)
    (h : xs.all p = true) : (xs ++ ys).takeWhile p = xs ++ ys.takeWhile p := by
  induction xs with
  | nil => rfl
  | cons c cs ih =>
    rw [List.all_cons, Bool.and_eq_true] at h
    rw [List.cons_append, List.takeWhile_cons_of_pos h.1, ih h.2, List.cons_append]

theorem dropWhile_append_all {p : Char → Bool} {xs : List Char} (ys : List Char)
    (h : xs.all p = true) (hys : ys.dropWhile p = ys) :
    (xs ++ ys).dropWhile p = ys := by
  induction xs with
  | nil => exact hys
  | cons c cs ih =>
    rw [List.all_cons, Bool.and_eq_true] at h
    rw [List.cons_append, List.dropWhile_cons_of_pos h.1, ih h.2]

theorem pyFraction_default_branch (c : Char) (cs : List Char) (h1 : c ≠ '+')
    (h2 : c ≠ '-') (hs : ((c :: cs).all fun x => !isPySpace x) = true) :
    pyFraction (c :: cs) = pyFractionBody (c :: cs) := by
  unfold pyFraction
  rw [strip_eq_self_of_no_space hs]
  show (match c :: cs with
    | '+' :: r => pyFractionBody r
    | '-' :: r => Option.map Neg.neg (pyFractionBody r)
    | r => pyFractionBody r) = pyFractionBody (c :: cs)
  split
  · rename_i r heq
    rw [List.cons.injEq] at heq
    exact absurd heq.1 h1
  · rename_i r heq
    rw [List.cons.injEq] at heq
    exact absurd heq.1 h2
  · rfl

theorem pyFraction_neg_branch (cs : List Char)
    (hs : (('-' :: cs).all fun x => !isPySpace x) = true) :
    pyFraction ('-' :: cs) = (pyFractionBody cs).map Neg.neg := by
  unfold pyFraction
  rw [strip_eq_self_of_no_space hs]
  rfl

theorem pyFractionBody_natStr (n : ℕ) : pyFractionBody (natStr n) = some (n : ℚ) := by
  unfold pyFractionBody
  rw [takeWhile_eq_self_of_all (natStr_all_digits n),
    dropWhile_eq_nil_of_all (natStr_all_digits n)]
  simp [parseNatDigits_natStr]

theorem pyFractionBody_div (n d : ℕ) (hd : d ≠ 0) :
    pyFractionBody (natStr n ++ '/' :: natStr d) = some ((n : ℚ) / (d : ℚ)) := by
  unfold pyFractionBody
  rw [takeWhile_append_all _ (natStr_all_digits n),
    dropWhile_append_all _ (natStr_all_digits n)
      (by rw [List.dropWhile_cons_of_neg]; decide)]
  rw [List.takeWhile_cons_of_neg (by decide)]
  simp only [List.append_nil, parseNatDigits_natStr]
  rw [if_neg hd]

theorem natStr_head_digit (n : ℕ) :
    ∃ c cs, natStr n = c :: cs ∧ isDigit09 c = true := by
  rcases hn : natStr n with _ | ⟨c, cs⟩
  · exact absurd hn (natStr_ne_nil n)
  · refine ⟨c, cs, rfl, ?_⟩
    have := natStr_all_digits n
    rw [hn, List.all_cons, Bool.and_eq_true] at this
    exact this.1

/-- The full numeral round trip: parsing the exact-rational rendering of any
rational recovers it. -/
theorem pyFraction_ratStr (q : ℚ) : pyFraction (ratStr q) = some q := by
  have hnum := q.num_div_den
  have hden1 : ((q.den : ℚ)) ≠ 0 := by
    exact_mod_cast q.den_nz
  by_cases hden : q.den = 1
  · rcases hq : q.num with m | m
    · have hm : ((m : ℚ)) = (q.num : ℚ) := by
        rw [hq]
        norm_cast
      have hq1 : ((q.num : ℚ)) = q := by
        conv_rhs => rw [← hnum]
        rw [hden]
        norm_num
      have hval : ((m : ℚ)) = q := hm.trans hq1
      have hrat : ratStr q = natStr m := by
        unfold ratStr intStr
        rw [if_pos hden, hq]
      obtain ⟨c, cs, hcs, hdig⟩ := natStr_head_digit m
      rw [hrat, hcs]
      rw [pyFraction_default_branch c cs
        (digit_ne_of_toNat hdig (by decide)) (digit_ne_of_toNat hdig (by decide))
        (by rw [← hcs]; exact (by simpa [hrat] using ratStr_no_space q)),
        ← hcs, pyFractionBody_natStr]
      exact congrArg some hval
    · have hm : (-(((m : ℚ) + 1))) = (q.num : ℚ) := by
        rw [hq]
        push_cast [Int.negSucc_eq]
        ring
      have hq1 : ((q.num : ℚ)) = q := by
        conv_rhs => rw [← hnum]
        rw [hden]
        norm_num
      have hval : (-(((m : ℚ) + 1))) = q := hm.trans hq1
      have hrat : ratStr q = '-' :: natStr (m + 1) := by
        unfold ratStr intStr
        rw [if_pos hden, hq]
      rw [hrat, pyFraction_neg_branch _ (by simpa [hrat] using ratStr_no_space q),
        pyFractionBody_natStr]
      show some (-((m + 1 : ℕ) : ℚ)) = some q
      refine congrArg some ?_
      rw [show ((m + 1 : ℕ) : ℚ) = ((m : ℚ)) + 1 by push_cast; ring]
      exact hval
  · have hd0 : q.den ≠ 0 := q.den_nz
    rcases hq : q.num with m | m
    · have hm : ((m : ℚ)) = (q.num : ℚ) := by
        rw [hq]
        norm_cast
      have hval : ((m : ℚ)) / ((q.den : ℚ)) = q := by
        rw [hm]
        exact hnum
      have hrat : ratStr q = natStr m ++ '/' :: natStr q.den := by
        unfold ratStr intStr
        rw [if_neg hden, hq]
      obtain ⟨c, cs, hcs, hdig⟩ := natStr_head_digit m
      have hcons : ratStr q = c :: (cs ++ '/' :: natStr q.den) := by
        rw [hrat, hcs]
        rfl
      rw [hcons, pyFraction_default_branch c _
        (digit_ne_of_toNat hdig (by decide)) (digit_ne_of_toNat hdig (by decide))
        (by rw [← hcons]; exact ratStr_no_space q)]
      rw [show c :: (cs ++ '/' :: natStr q.den) = natStr m ++ '/' :: natStr q.den by
        rw [hcs]; rfl]
      rw [pyFractionBody_div m q.den hd0]
      exact congrArg some hval
    · have hm : (-(((m : ℚ) + 1))) = (q.num : ℚ) := by
        rw [hq]
        push_cast [Int.negSucc_eq]
        ring
      have hval : (-((((m : ℚ)) + 1) / ((q.den : ℚ)))) = q := by
        rw [← neg_div, hm]
        exact hnum
      have hrat : ratStr q = '-' :: (natStr (m + 1) ++ '/' :: natStr q.den) := by
        unfold ratStr intStr
        rw [if_neg hden, hq]
        rfl
      rw [hrat, pyFraction_neg_branch _ (by simpa [hrat] using ratStr_no_space q),
        pyFractionBody_div (m + 1) q.den hd0]
      show some (-(((m + 1 : ℕ) : ℚ) / ((q.den : ℚ)))) = some q
      refine congrArg some ?_
      rw [show ((m + 1 : ℕ) : ℚ) = ((m : ℚ)) + 1 by push_cast; ring]
      exact hval

/-! ## Tokenizer structure lemmas -/

/-- A well-formed token block: nonempty, uppercase head, no uppercase
afterwards — the shape of every `'[A-Z][^A-Z]*'` match. -/
def wfBlock (b : List Char) : Prop :=
  ∃ c cs, b = c :: cs ∧ isUpperAZ c = true ∧ cs.all (fun x => !isUpperAZ x) = true

theorem tokensAux_consume (cs : List Char) (hcs : cs.all (fun x => !isUpperAZ x) = true) :
    ∀ rest acc, acc ≠ [] → tokensAux (cs ++ rest) acc = tokensAux rest (cs.reverse ++ acc) := by
  induction cs with
  | nil => intro rest acc _; simp
  | cons c cs ih =>
    intro rest acc hacc
    rw [List.all_cons, Bool.and_eq_true] at hcs
    have hc : isUpperAZ c = false := by simpa using hcs.1
    rw [List.cons_append]
    show tokensAux (c :: (cs ++ rest)) acc = _
    rw [show tokensAux (c :: (cs ++ rest)) acc = tokensAux (cs ++ rest) (c :: acc) by
      simp [tokensAux, hc, hacc, List.isEmpty_eq_true]]
    rw [ih hcs.2 rest (c :: acc) (by simp)]
    simp

theorem tokensAux_nil_acc (acc : List Char) (hacc : acc ≠ []) :
    tokensAux [] acc = [acc.reverse] := by
  simp [tokensAux, List.isEmpty_eq_true, hacc]

theorem tokensAux_blocks : ∀ blocks : List (List Char), (∀ b ∈ blocks, wfBlock b) →
    tokensAux blocks.flatten [] = blocks ∧
    ∀ acc, acc ≠ [] → tokensAux blocks.flatten acc = acc.reverse :: blocks := by
  intro blocks
  induction blocks with
  | nil =>
    intro _
    exact ⟨rfl, fun acc hacc => by simp [tokensAux_nil_acc acc hacc]⟩
  | cons b bs ih =>
    intro hwf
    obtain ⟨c, cs, rfl, hcu, hcs⟩ := hwf b (List.mem_cons_self _ _)
    have ihs := ih fun x hx => hwf x (List.mem_cons_of_mem _ hx)
    constructor
    · show tokensAux (((c :: cs) ++ bs.flatten)) [] = (c :: cs) :: bs
      rw [List.cons_append,
        show tokensAux (c :: (cs ++ bs.flatten)) [] = tokensAux (cs ++ bs.flatten) [c] by
          simp [tokensAux, hcu],
        tokensAux_consume cs hcs bs.flatten [c] (by simp),
        ihs.2 (cs.reverse ++ [c]) (by simp)]
      simp
    · intro acc hacc
      show tokensAux (((c :: cs) ++ bs.flatten)) acc = acc.reverse :: (c :: cs) :: bs
      rw [List.cons_append,
        show tokensAux (c :: (cs ++ bs.flatten)) acc
            = acc.reverse :: tokensAux (cs ++ bs.flatten) [c] by
          simp [tokensAux, hcu, List.isEmpty_eq_true, hacc],
        tokensAux_consume cs hcs bs.flatten [c] (by simp),
        ihs.2 (cs.reverse ++ [c]) (by simp)]
      simp

/-- Tokenizing a flat concatenation of well-formed blocks recovers exactly
the blocks. -/
theorem findUpperTokens_blocks (blocks : List (List Char))
    (hwf : ∀ b ∈ blocks, wfBlock b) :
    findUpperTokens blocks.flatten = blocks :=
  (tokensAux_blocks blocks hwf).1

/-- Every token produced by the tokenizer is a well-formed block. -/
theorem tokensAux_wf : ∀ (s acc : List Char), (acc = [] ∨ wfBlock acc.reverse) →
    ∀ t ∈ tokensAux s acc, wfBlock t := by
  intro s
  induction s with
  | nil =>
    intro acc hacc t ht
    rcases hacc with rfl | hwf
    · simp [tokensAux] at ht
    · rcases List.eq_nil_or_concat acc with rfl | ⟨_, _, rfl⟩
      · simp [tokensAux] at ht
      · rw [tokensAux_nil_acc _ (by simp)] at ht
        rw [List.mem_singleton] at ht
        exact ht ▸ hwf
  | cons c cs ih =>
    intro acc hacc t ht
    by_cases hcu : isUpperAZ c = true
    · rcases hacc with rfl | hwf
      · rw [show tokensAux (c :: cs) [] = tokensAux cs [c] by simp [tokensAux, hcu]] at ht
        exact ih [c] (Or.inr ⟨c, [], rfl, hcu, by simp⟩) t ht
      · rcases List.eq_nil_or_concat acc with rfl | ⟨a0, a1, rfl⟩
        · rw [show tokensAux (c :: cs) [] = tokensAux cs [c] by simp [tokensAux, hcu]] at ht
          exact ih [c] (Or.inr ⟨c, [], rfl, hcu, by simp⟩) t ht
        · rw [List.concat_eq_append] at ht hwf
          rw [show tokensAux (c :: cs) (a0 ++ [a1])
              = (a0 ++ [a1]).reverse :: tokensAux cs [c] by
            simp [tokensAux, hcu, List.isEmpty_eq_true]] at ht
          rcases List.mem_cons.mp ht with rfl | ht'
          · exact hwf
          · exact ih [c] (Or.inr ⟨c, [], rfl, hcu, by simp⟩) t ht'
    · rcases hacc with rfl | hwf
      · rw [show tokensAux (c :: cs) [] = tokensAux cs [] by simp [tokensAux, hcu]] at ht
        exact ih [] (Or.inl rfl) t ht
      · rcases List.eq_nil_or_concat acc with rfl | ⟨a0, a1, rfl⟩
        · rw [show tokensAux (c :: cs) [] = tokensAux cs [] by simp [tokensAux, hcu]] at ht
          exact ih [] (Or.inl rfl) t ht
        · rw [List.concat_eq_append] at ht hwf
          rw [show tokensAux (c :: cs) (a0 ++ [a1])
              = tokensAux cs (c :: (a0 ++ [a1])) by
            simp [tokensAux, hcu, List.isEmpty_eq_true]] at ht
          refine ih (c :: (a0 ++ [a1])) (Or.inr ?_) t ht
          obtain ⟨u, us, hu, huu, hus⟩ := hwf
          refine ⟨u, us ++ [c], ?_, huu, ?_⟩
          · rw [List.reverse_cons, hu]
            rfl
          · rw [List.all_append, hus]
            simpa using hcu

theorem findUpperTokens_wf (s : List Char) : ∀ t ∈ findUpperTokens s, wfBlock t :=
  tokensAux_wf s [] (Or.inl rfl)

/-! ## `splitOnChar` structure lemmas -/

theorem splitOnChar_cons_sep (c : Char) (rest : List Char) :
    splitOnChar c (c :: rest) = [] :: splitOnChar c rest := by
  show (match splitOnChar c rest with
    | [] => [[]]
    | p :: ps => if c = c then [] :: p :: ps else (c :: p) :: ps) = _
  rcases h : splitOnChar c rest with _ | ⟨p, ps⟩
  · exact absurd h (splitOnChar_ne_nil c rest)
  · simp

theorem splitOnChar_cons_ne (c d : Char) (hne : d ≠ c) (rest : List Char) :
    splitOnChar c (d :: rest) =
      (d :: (splitOnChar c rest).headD []) :: (splitOnChar c rest).tail := by
  show (match splitOnChar c rest with
    | [] => [[]]
    | p :: ps => if d = c then [] :: p :: ps else (d :: p) :: ps) = _
  rcases h : splitOnChar c rest with _ | ⟨p, ps⟩
  · exact absurd h (splitOnChar_ne_nil c rest)
  · simp [hne]

theorem splitOnChar_not_mem {c : Char} {s : List Char} (h : c ∉ s) :
    splitOnChar c s = [s] := by
  induction s with
  | nil => rfl
  | cons d ds ih =>
    have hd : d ≠ c := fun he => h (he ▸ List.mem_cons_self d ds)
    rw [splitOnChar_cons_ne c d hd, ih (fun hm => h (List.mem_cons_of_mem d hm))]
    rfl

theorem splitOnChar_sep (c : Char) (xs ys : List Char) (h : c ∉ xs) :
    splitOnChar c (xs ++ c :: ys) = xs :: splitOnChar c ys := by
  induction xs with
  | nil => exact splitOnChar_cons_sep c ys
  | cons d ds ih =>
    have hd : d ≠ c := fun he => h (he ▸ List.mem_cons_self d ds)
    rw [List.cons_append, splitOnChar_cons_ne c d hd,
      ih (fun hm => h (List.mem_cons_of_mem d hm))]
    rfl

/-- Parts of a split never contain the separator. -/
theorem splitOnChar_parts_not_mem (c : Char) (s : List Char) :
    ∀ p ∈ splitOnChar c s, c ∉ p := by
  induction s with
  | nil =>
    intro p hp
    rw [show splitOnChar c [] = [[]] from rfl, List.mem_singleton] at hp
    simp [hp]
  | cons d ds ih =>
    intro p hp
    by_cases hd : d = c
    · subst hd
      rw [splitOnChar_cons_sep] at hp
      rcases List.mem_cons.mp hp with rfl | hp'
      · simp
      · exact ih p hp'
    · rw [splitOnChar_cons_ne c d hd] at hp
      rcases hsp : splitOnChar c ds with _ | ⟨q, qs⟩
      · exact absurd hsp (splitOnChar_ne_nil c ds)
      · rw [hsp] at hp
        simp only [List.headD_cons, List.tail_cons] at hp
        rcases List.mem_cons.mp hp with rfl | hp'
        · intro hmem
          rcases List.mem_cons.mp hmem with he | hmem'
          · exact hd he.symm
          · exact ih q (by rw [hsp]; exact List.mem_cons_self _ _) hmem'
        · exact ih p (by rw [hsp]; exact List.mem_cons_of_mem _ hp')

/-- Splitting a concatenation of `sep ++ block` groups (each block free of
the separator) recovers an empty head part and the blocks. -/
theorem splitOnChar_flattened_groups (c : Char) :
    ∀ blocks : List (List Char), (∀ b ∈ blocks, c ∉ b) →
    splitOnChar c ((blocks.map (c :: ·)).flatten) = [] :: blocks := by
  intro blocks
  induction blocks with
  | nil => intro _; rfl
  | cons b bs ih =>
    intro h
    have hb : c ∉ b := h b (List.mem_cons_self _ _)
    have hbs := ih fun x hx => h x (List.mem_cons_of_mem _ hx)
    rw [List.map_cons, List.flatten_cons, List.cons_append, splitOnChar_cons_sep]
    cases bs with
    | nil =>
      simp only [List.map_nil, List.flatten_nil, List.append_nil]
      rw [splitOnChar_not_mem hb]
    | cons b2 bs2 =>
      rw [List.map_cons, List.flatten_cons, List.cons_append] at hbs ⊢
      rw [splitOnChar_cons_sep] at hbs
      rw [List.cons.injEq] at hbs
      rw [show b ++ c :: (b2 ++ (List.map (c :: ·) bs2).flatten)
          = b ++ c :: (b2 ++ (List.map (c :: ·) bs2).flatten) from rfl,
        splitOnChar_sep c b _ hb, hbs.2]

/-! ## Chunk accessors: the parse steps on one bracketed group, named so
that the round-trip statement can refer to them -/

def propD (tok : List Char) : ℚ := (speciesProp tok).getD 0

def chunkParts (chunk : List Char) : List (List Char) := splitOnChar ']' chunk

def chunkOccStr (chunk : List Char) : List Char := (chunkParts chunk).headD []

def chunkTokens (chunk : List Char) : List (List Char) :=
  findUpperTokens (chunkOccStr chunk)

def chunkNames (chunk : List Char) : List String := (chunkTokens chunk).map speciesName

def chunkProps (chunk : List Char) : List ℚ := (chunkTokens chunk).map propD

def chunkTail (chunk : List Char) : List Char := ((chunkParts chunk).drop 1).headD []

def chunkMultStr (chunk : List Char) : List Char :=
  (chunkTail chunk).takeWhile fun c => !isUpperAZ c

def chunkMult (chunk : List Char) : ℚ :=
  if chunkMultStr chunk = [] then 1 else (pyFraction (chunkMultStr chunk)).getD 0

def chunkBulkFold (chunk : List Char) (f : Formula) : Formula :=
  (chunkTokens chunk).foldl
    (fun f t => updateAdd f (speciesName t) (chunkMult chunk * propD t)) f

/-- Success conditions for parsing one chunk. -/
def chunkOk (chunk : List Char) : Prop :=
  2 ≤ (chunkParts chunk).length ∧
  (chunkMultStr chunk = [] ∨ (pyFraction (chunkMultStr chunk)).isSome = true) ∧
  ∀ t ∈ chunkTokens chunk, (speciesProp t).isSome = true

/-! ## Index bookkeeping helpers -/

theorem modifyAt_eq_set {α} (g : α → α) (d : α) :
    ∀ (k : ℕ) (l : List α), k < l.length → modifyAt g k l = l.set k (g (l.getD k d)) := by
  intro k
  induction k with
  | zero =>
    intro l hl
    cases l with
    | nil => simp at hl
    | cons a l => rfl
  | succ k ih =>
    intro l hl
    cases l with
    | nil => simp at hl
    | cons a l =>
      simp only [modifyAt, List.set]
      rw [ih l (by simpa using hl)]
      rfl

theorem getD_set_self {α} (d v : α) :
    ∀ (k : ℕ) (l : List α), k < l.length → (l.set k v).getD k d = v := by
  intro k
  induction k with
  | zero =>
    intro l hl
    cases l with
    | nil => simp at hl
    | cons a l => rfl
  | succ k ih =>
    intro l hl
    cases l with
    | nil => simp at hl
    | cons a l => exact ih l (by simpa using hl)

theorem set_getD_self {α} (d : α) :
    ∀ (k : ℕ) (l : List α), k < l.length → l.set k (l.getD k d) = l := by
  intro k
  induction k with
  | zero =>
    intro l hl
    cases l with
    | nil => simp at hl
    | cons a l => rfl
  | succ k ih =>
    intro l hl
    cases l with
    | nil => simp at hl
    | cons a l =>
      simp only [List.set, List.getD_cons_succ]
      rw [ih l (by simpa using hl)]

theorem getD_set_ne {α} (d v : α) :
    ∀ (k j : ℕ) (l : List α), k ≠ j → (l.set k v).getD j d = l.getD j d := by
  intro k
  induction k with
  | zero =>
    intro j l hne
    cases l with
    | nil => rfl
    | cons a l =>
      cases j with
      | zero => exact absurd rfl hne
      | succ j => rfl
  | succ k ih =>
    intro j l hne
    cases l with
    | nil => rfl
    | cons a l =>
      cases j with
      | zero => rfl
      | succ j =>
        simp only [List.set, List.getD_cons_succ]
        exact ih j l (by omega)

theorem set_append_last {α} (xs : List α) (a b : α) :
    (xs ++ [a]).set xs.length b = xs ++ [b] := by
  induction xs with
  | nil => rfl
  | cons x xs ih =>
    simp only [List.cons_append, List.length_cons, List.set, List.append_eq]
    rw [ih]

/-! ## The single-endmember token fold -/

theorem processSpecies_fold (k : ℕ) (mult : ℚ) :
    ∀ (tokens : List (List Char)) (sites : List (List String)) (row : List (List ℚ))
      (formula : Formula),
      k < sites.length → row.length = sites.length →
      ((sites.getD k []) ++ tokens.map speciesName).Nodup →
      (sites.getD k []).length = (row.getD k []).length →
      (∀ t ∈ tokens, (speciesProp t).isSome = true) →
      tokens.foldlM (processSpecies k mult) (⟨sites, [row], formula⟩ : SiteState) =
        some ⟨sites.set k ((sites.getD k []) ++ tokens.map speciesName),
              [row.set k ((row.getD k []) ++ tokens.map propD)],
              tokens.foldl (fun f t => updateAdd f (speciesName t) (mult * propD t))
                formula⟩ := by
  intro tokens
  induction tokens with
  | nil =>
    intro sites row formula hk hlen _ _ _
    simp only [List.foldlM_nil, List.map_nil, List.append_nil, List.foldl_nil]
    rw [set_getD_self [] k sites hk, set_getD_self [] k row (by omega)]
    rfl
  | cons t ts ih =>
    intro sites row formula hk hlen hnd hkl hsome
    have hprop : speciesProp t = some (propD t) := by
      have := hsome t (List.mem_cons_self _ _)
      rcases Option.isSome_iff_exists.mp this with ⟨p, hp⟩
      rw [hp]
      simp [propD, hp]
    have hnotmem : speciesName t ∉ sites.getD k [] := by
      rw [List.map_cons] at hnd
      intro hmem
      have := (List.nodup_append.mp hnd).2.2
      exact this hmem (List.mem_cons_self _ _)
    rw [List.foldlM_cons]
    have hstep : processSpecies k mult (⟨sites, [row], formula⟩ : SiteState) t =
        some ⟨sites.set k ((sites.getD k []) ++ [speciesName t]),
              [row.set k ((row.getD k []) ++ [propD t])],
              updateAdd formula (speciesName t) (mult * propD t)⟩ := by
      simp only [processSpecies, hprop, Option.bind_some, Option.some_bind]
      rw [if_neg hnotmem]
      have hrow : [row].map (modifyAt (· ++ [(0 : ℚ)]) k) =
          [row.set k ((row.getD k []) ++ [(0 : ℚ)])] := by
        rw [List.map_cons, List.map_nil, modifyAt_eq_set _ [] k row (by omega)]
      simp only [hrow]
      have hsites : modifyAt (· ++ [speciesName t]) k sites =
          sites.set k ((sites.getD k []) ++ [speciesName t]) :=
        modifyAt_eq_set _ [] k sites hk
      have hklrow : k < row.length := by omega
      have hlast : modifyLast (modifyAt (fun sl => sl.set (sites.getD k []).length (propD t)) k)
            [row.set k ((row.getD k []) ++ [(0 : ℚ)])] =
          [row.set k ((row.getD k []) ++ [propD t])] := by
        show [modifyAt (fun sl => sl.set (sites.getD k []).length (propD t)) k
          (row.set k ((row.getD k []) ++ [(0 : ℚ)]))] = _
        rw [modifyAt_eq_set _ [] k _ (by rw [List.length_set]; exact hklrow),
          getD_set_self _ _ _ _ hklrow, List.set_set, hkl, set_append_last]
      rw [hsites, hlast]
    rw [hstep]
    show ts.foldlM (processSpecies k mult) _ = _
    rw [ih (sites.set k ((sites.getD k []) ++ [speciesName t]))
        (row.set k ((row.getD k []) ++ [propD t]))
        (updateAdd formula (speciesName t) (mult * propD t))
        (by rw [List.length_set]; exact hk)
        (by rw [List.length_set, List.length_set]; exact hlen)
        (by rw [getD_set_self _ _ _ _ hk, List.append_assoc]
            simpa using hnd)
        (by rw [getD_set_self _ _ _ _ hk, getD_set_self _ _ _ _ (by omega : k < row.length)]
            simp only [List.length_append, List.length_cons, List.length_nil]
            omega)
        (fun x hx => hsome x (List.mem_cons_of_mem _ hx))]
    rw [List.set_set, List.set_set, getD_set_self _ _ _ _ hk,
      getD_set_self _ _ _ _ (by omega : k < row.length)]
    simp [List.append_assoc]

/-! ## The dead after-site loop -/

theorem tokensAux_nonupper_nil :
    ∀ s : List Char, s.all (fun c => !isUpperAZ c) = true → tokensAux s [] = [] := by
  intro s
  induction s with
  | nil => intro _; rfl
  | cons c cs ih =>
    intro h
    rw [List.all_cons, Bool.and_eq_true] at h
    have hc : isUpperAZ c = false := by simpa using h.1
    rw [show tokensAux (c :: cs) [] = tokensAux cs [] by simp [tokensAux, hc]]
    exact ih h.2

theorem replaceFirst_all {p : Char → Bool} :
    ∀ (s pat : List Char), s.all p = true → (replaceFirst s pat).all p = true := by
  intro s
  induction s with
  | nil => intro pat _; rfl
  | cons c cs ih =>
    intro pat h
    rw [List.all_cons, Bool.and_eq_true] at h
    unfold replaceFirst
    by_cases hp : pat.isPrefixOf (c :: cs) = true
    · rw [if_pos hp]
      rw [List.all_eq_true]
      intro x hx
      have : x ∈ c :: cs := List.mem_of_mem_drop hx
      rcases List.mem_cons.mp this with rfl | hx'
      · exact h.1
      · exact (List.all_eq_true.mp h.2) x hx'
    · rw [if_neg hp, List.all_cons, Bool.and_eq_true]
      exact ⟨h.1, ih pat h.2⟩

/-- In Python 3 the after-site loop contributes nothing: its scan string is
the filter-object repr minus the multiplicity string, which contains no
uppercase letter, so no species token is found. -/
theorem postSiteFold_id (multStr : List Char) (f : Formula) : postSiteFold multStr f = f := by
  unfold postSiteFold
  rw [show findUpperTokens (replaceFirst pyFilterRepr multStr) = [] from
    tokensAux_nonupper_nil _ (replaceFirst_all pyFilterRepr multStr (by decide))]
  rfl

/-! ## Per-site and per-endmember parse characterization -/

theorem set_take_succ {α} (v : α) :
    ∀ (k : ℕ) (l : List α), k < l.length →
      (l.set k v).take (k + 1) = l.take k ++ [v] := by
  intro k
  induction k with
  | zero =>
    intro l hl
    cases l with
    | nil => simp at hl
    | cons a l => rfl
  | succ k ih =>
    intro l hl
    cases l with
    | nil => simp at hl
    | cons a l =>
      simp only [List.set, List.take_succ_cons, List.take, List.cons_append]
      rw [ih l (by simpa using hl)]

theorem getD_replicate_nil {α} : ∀ (j n : ℕ),
    ((List.replicate n ([] : List α)).getD j []) = [] := by
  intro j
  induction j with
  | zero =>
    intro n
    cases n with
    | zero => rfl
    | succ n => rfl
  | succ j ih =>
    intro n
    cases n with
    | zero => rfl
    | succ n => exact ih n

theorem splitOnChar_length (c : Char) :
    ∀ s : List Char, (splitOnChar c s).length = (s.filter (· = c)).length + 1 := by
  intro s
  induction s with
  | nil => rfl
  | cons d ds ih =>
    by_cases hd : d = c
    · subst hd
      rw [splitOnChar_cons_sep, List.length_cons, ih]
      simp
    · rw [splitOnChar_cons_ne c d hd]
      rcases hsp : splitOnChar c ds with _ | ⟨p, ps⟩
      · exact absurd hsp (splitOnChar_ne_nil c ds)
      · rw [hsp] at ih
        simp only [List.headD_cons, List.tail_cons, List.length_cons]
        rw [List.filter_cons_of_neg (by simpa using hd)]
        simpa using ih

theorem chunkMult_some (chunk : List Char) (hok : chunkOk chunk) :
    (if chunkMultStr chunk = [] then some 1 else pyFraction (chunkMultStr chunk)) =
      some (chunkMult chunk) := by
  unfold chunkMult
  by_cases h : chunkMultStr chunk = []
  · rw [if_pos h, if_pos h]
  · rw [if_neg h, if_neg h]
    rcases Option.isSome_iff_exists.mp (hok.2.1.resolve_left h) with ⟨v, hv⟩
    rw [hv]
    rfl

theorem processSite_fresh (k : ℕ) (sites : List (List String)) (row : List (List ℚ))
    (formula : Formula) (chunk : List Char)
    (hk : k < sites.length) (hlen : row.length = sites.length)
    (hknil : sites.getD k [] = []) (hrnil : row.getD k [] = [])
    (hok : chunkOk chunk) (hnd : (chunkNames chunk).Nodup) :
    processSite ⟨sites, [row], formula⟩ k chunk =
      some (⟨sites.set k (chunkNames chunk), [row.set k (chunkProps chunk)],
             chunkBulkFold chunk formula⟩, chunkMult chunk) := by
  obtain ⟨occStr, tailStr, rest, hparts⟩ :
      ∃ a b r, splitOnChar ']' chunk = a :: b :: r := by
    have h2 := hok.1
    unfold chunkParts at h2
    rcases hp : splitOnChar ']' chunk with _ | ⟨a, _ | ⟨b, r⟩⟩
    · exact absurd hp (splitOnChar_ne_nil _ _)
    · rw [hp] at h2; simp at h2
    · exact ⟨a, b, r, rfl⟩
  have hocc : chunkOccStr chunk = occStr := by
    unfold chunkOccStr chunkParts
    rw [hparts]
    rfl
  have hms : chunkMultStr chunk = tailStr.takeWhile fun c => !isUpperAZ c := by
    unfold chunkMultStr chunkTail chunkParts
    rw [hparts]
    rfl
  simp only [processSite, hparts]
  rw [← hms, chunkMult_some chunk hok, ← hocc]
  split
  · rename_i heq
    exact Option.noConfusion heq
  · rename_i mult heq
    obtain rfl : chunkMult chunk = mult := by injection heq
    have hfold :
        List.foldlM (processSpecies k (chunkMult chunk))
            (⟨sites, [row], formula⟩ : SiteState) (findUpperTokens (chunkOccStr chunk)) =
          some ⟨sites.set k (sites.getD k [] ++ (chunkTokens chunk).map speciesName),
                [row.set k (row.getD k [] ++ (chunkTokens chunk).map propD)],
                (chunkTokens chunk).foldl
                  (fun f t => updateAdd f (speciesName t) (chunkMult chunk * propD t))
                  formula⟩ :=
      processSpecies_fold k (chunkMult chunk) (chunkTokens chunk) sites row formula hk hlen
        (by rw [hknil]; simpa [chunkNames] using hnd) (by rw [hknil, hrnil]; rfl) hok.2.2
    rw [hfold]
    split
    · rename_i heq2
      exact Option.noConfusion heq2
    · rename_i st heq2
      obtain rfl : _ = st := by injection heq2
      dsimp only
      rw [hknil, hrnil]
      simp only [List.nil_append]
      rw [postSiteFold_id]
      rfl

theorem processSites_fold :
    ∀ (chunks : List (List Char)) (k : ℕ) (sites : List (List String))
      (row : List (List ℚ)) (formula : Formula) (multsAcc : List ℚ),
      row.length = sites.length →
      sites.length = k + chunks.length →
      (∀ j, k ≤ j → sites.getD j [] = []) →
      (∀ j, k ≤ j → row.getD j [] = []) →
      (∀ c ∈ chunks, chunkOk c ∧ (chunkNames c).Nodup) →
      (chunks.enumFrom k).foldlM
          (fun (acc : SiteState × List ℚ) (ic : ℕ × List Char) =>
            match processSite acc.1 ic.1 ic.2 with
            | none => none
            | some rm => some (rm.1, acc.2 ++ [rm.2]))
          ((⟨sites, [row], formula⟩ : SiteState), multsAcc) =
        some (⟨sites.take k ++ chunks.map chunkNames,
               [row.take k ++ chunks.map chunkProps],
               chunks.foldl (fun f c => chunkBulkFold c f) formula⟩,
              multsAcc ++ chunks.map chunkMult) := by
  intro chunks
  induction chunks with
  | nil =>
    intro k sites row formula multsAcc hlen htot _ _ _
    have hks : sites.length = k := by simpa using htot
    simp only [List.enumFrom_nil, List.foldlM_nil, List.map_nil, List.append_nil,
      List.foldl_nil]
    rw [show sites.take k = sites by rw [← hks, List.take_length],
      show row.take k = row by rw [show k = row.length by omega, List.take_length]]
    rfl
  | cons c cs ih =>
    intro k sites row formula multsAcc hlen htot hsnil hrnil hok
    rw [List.enumFrom_cons, List.foldlM_cons]
    have hk : k < sites.length := by
      rw [htot, List.length_cons]
      omega
    rw [processSite_fresh k sites row formula c hk hlen (hsnil k le_rfl) (hrnil k le_rfl)
      (hok c (List.mem_cons_self _ _)).1 (hok c (List.mem_cons_self _ _)).2]
    show (cs.enumFrom (k + 1)).foldlM _
      ((⟨sites.set k (chunkNames c), [row.set k (chunkProps c)],
        chunkBulkFold c formula⟩ : SiteState), multsAcc ++ [chunkMult c]) = _
    rw [ih (k + 1) (sites.set k (chunkNames c)) (row.set k (chunkProps c))
      (chunkBulkFold c formula) (multsAcc ++ [chunkMult c])
      (by rw [List.length_set, List.length_set]; exact hlen)
      (by rw [List.length_set, htot, List.length_cons]; omega)
      (fun j hj => by
        rw [getD_set_ne _ _ _ _ _ (by omega)]
        exact hsnil j (by omega))
      (fun j hj => by
        rw [getD_set_ne _ _ _ _ _ (by omega)]
        exact hrnil j (by omega))
      (fun x hx => hok x (List.mem_cons_of_mem _ hx))]
    rw [set_take_succ _ _ _ hk, set_take_succ _ _ _ (by omega : k < row.length)]
    simp [List.append_assoc]

theorem countBrackets_chunks (T : String) (chunks : List (List Char))
    (hchunks : (splitOnChar '[' T.data).drop 1 = chunks) :
    countBrackets T = chunks.length := by
  rw [← hchunks, List.length_drop, splitOnChar_length]
  unfold countBrackets
  omega

theorem processEndmember_single (chunks : List (List Char)) (f : List Char)
    (hchunks : (splitOnChar '[' f).drop 1 = chunks)
    (hok : ∀ c ∈ chunks, chunkOk c ∧ (chunkNames c).Nodup) :
    processEndmember ⟨List.replicate chunks.length [], [], [], []⟩ f =
      some ⟨chunks.map chunkNames, [chunks.map chunkProps], [chunks.map chunkMult],
            [chunks.foldl (fun fo c => chunkBulkFold c fo) []]⟩ := by
  simp only [processEndmember]
  rw [hchunks]
  simp only [List.map_replicate, List.length_nil, List.replicate_zero, List.nil_append]
  rw [show List.enum chunks = chunks.enumFrom 0 from rfl,
    processSites_fold chunks 0 (List.replicate chunks.length [])
      (List.replicate chunks.length []) [] []
      (by simp) (by simp)
      (fun j _ => getD_replicate_nil j chunks.length)
      (fun j _ => getD_replicate_nil j chunks.length) hok]
  simp only [List.take_zero, List.nil_append]

theorem enumFrom_guard_false :
    ∀ (l : List (List String)) (k : ℕ), k + l.length ≤ 26 →
      ((l.enumFrom k).any fun p => 26 ≤ p.1 ∧ p.2 ≠ []) = false := by
  intro l
  induction l with
  | nil => intro k _; rfl
  | cons a l ih =>
    intro k hk
    simp only [List.length_cons] at hk
    rw [List.enumFrom_cons, List.any_cons, ih (k + 1) (by omega)]
    rw [Bool.or_false]
    exact decide_eq_false fun h => by omega

/-- Fully explicit result of parsing a single endmember formula whose
chunks all parse, with at most 26 sites. -/
theorem process_single (T : String) (chunks : List (List Char))
    (hchunks : (splitOnChar '[' T.data).drop 1 = chunks)
    (hok : ∀ c ∈ chunks, chunkOk c ∧ (chunkNames c).Nodup)
    (h26 : chunks.length ≤ 26) :
    process_solution_chemistry [T] =
      .ok { solution_formulae := [chunks.foldl (fun fo c => chunkBulkFold c fo) []],
            n_sites := chunks.length,
            sites := chunks.map chunkNames,
            site_names := (((chunks.map chunkNames).enum).map fun p =>
              p.2.map fun sp => sp ++ "_" ++ ucaseLetter p.1).flatten,
            n_occupancies := ((chunks.map chunkNames).map List.length).sum,
            site_multiplicities := [(((chunks.map chunkProps).zip
              (chunks.map chunkMult)).map
              fun sm => List.replicate sm.1.length sm.2).flatten],
            endmember_occupancies := [(chunks.map chunkProps).flatten],
            endmember_noccupancies := [((chunks.map chunkProps).flatten).zipWith (· * ·)
              ((((chunks.map chunkProps).zip (chunks.map chunkMult)).map
                fun sm => List.replicate sm.1.length sm.2).flatten)] } := by
  have hn : countBrackets T = chunks.length := countBrackets_chunks T chunks hchunks
  simp only [process_solution_chemistry]
  rw [hn]
  split
  · rename_i h
    exact absurd (by simp [hn]) h
  · simp only [List.foldlM_cons, List.foldlM_nil, bind_pure]
    rw [processEndmember_single chunks T.data hchunks hok]
    split
    · rename_i heq
      exact Option.noConfusion heq
    · rename_i st heq
      obtain rfl : _ = st := by injection heq
      dsimp only
      split
      · rename_i hg
        rw [show List.enum (chunks.map chunkNames) = (chunks.map chunkNames).enumFrom 0
            from rfl,
          enumFrom_guard_false (chunks.map chunkNames) 0 (by simpa using h26)] at hg
        exact absurd hg (by simp)
      · simp only [List.zip_cons_cons, List.zip_nil_right, List.map_cons, List.map_nil,
          List.zipWith_cons_cons, List.zipWith_nil_right]

/-! ## Rendering characterization -/

theorem getD_eq_headD_drop {α} (d : α) :
    ∀ (i : ℕ) (l : List α), l.getD i d = (l.drop i).headD d := by
  intro i
  induction i with
  | zero =>
    intro l
    cases l with
    | nil => rfl
    | cons a l => rfl
  | succ i ih =>
    intro l
    cases l with
    | nil => rfl
    | cons a l => exact ih l

theorem foldl_append_data : ∀ (l : List String) (a : String),
    (l.foldl (· ++ ·) a).data = a.data ++ (l.map String.data).flatten := by
  intro l
  induction l with
  | nil => intro a; simp
  | cons b bs ih =>
    intro a
    rw [List.foldl_cons, ih, List.map_cons, List.flatten_cons, String.data_append,
      List.append_assoc]

theorem join_data (l : List String) :
    (String.join l).data = (l.map String.data).flatten := by
  show (l.foldl (· ++ ·) "").data = _
  rw [foldl_append_data]
  rfl

theorem join_cons (a : String) (l : List String) :
    String.join (a :: l) = a ++ String.join l := by
  apply String.ext
  rw [join_data, String.data_append, join_data, List.map_cons, List.flatten_cons]

/-- The rendering loop over a run of sites laid out consecutively inside
the flattened occupancy row and multiplicity row. -/
theorem renderSitesGo_eq :
    ∀ (triples : List (List String × List ℚ × ℚ)) (i : ℕ) (occ mrow : List ℚ),
      occ.drop i = (triples.map fun t => t.2.1).flatten →
      mrow.drop i = (triples.map fun t => List.replicate t.1.length t.2.2).flatten →
      (∀ t ∈ triples, t.1.length = t.2.1.length ∧ t.1 ≠ []) →
      renderSitesGo (triples.map fun t => t.1) occ mrow i =
        String.join (triples.map fun t =>
          "[" ++ formula_to_string (pyDictOf (t.1.zip (t.2.1.map (· / t.2.1.sum))))
          ++ "]" ++ (if |t.2.2 - 1| < 1 / 10 ^ 12 then ""
                     else (ratStr t.2.2).asString)) := by
  intro triples
  induction triples with
  | nil =>
    intro i occ mrow _ _ _
    rfl
  | cons t ts ih =>
    intro i occ mrow hocc hmrow hwf
    obtain ⟨hlen, hne⟩ := hwf t (List.mem_cons_self _ _)
    rw [List.map_cons] at hocc hmrow
    rw [List.flatten_cons] at hocc hmrow
    have hamounts : (occ.drop i).take t.1.length = t.2.1 := by
      rw [hocc, hlen, List.take_left]
    have hmult : mrow.getD i 0 = t.2.2 := by
      rw [getD_eq_headD_drop, hmrow]
      rcases hx : t.1 with _ | ⟨x, xs⟩
      · exact absurd hx hne
      · rw [List.length_cons, List.replicate_succ, List.cons_append, List.headD_cons]
    have hoccRest : occ.drop (i + t.1.length) = ((ts.map fun t => t.2.1)).flatten := by
      rw [← List.drop_drop, hocc, hlen, List.drop_left]
    have hmrowRest : mrow.drop (i + t.1.length) =
        ((ts.map fun t => List.replicate t.1.length t.2.2)).flatten := by
      rw [← List.drop_drop, hmrow, List.drop_left' (by simp)]
    rw [List.map_cons, List.map_cons, join_cons]
    show "[" ++ formula_to_string (pyDictOf (t.1.zip
        (((occ.drop i).take t.1.length).map
          (· / ((occ.drop i).take t.1.length).sum)))) ++ "]"
      ++ (if |mrow.getD i 0 - 1| < 1 / 10 ^ 12 then ""
          else (ratStr (mrow.getD i 0)).asString)
      ++ renderSitesGo (ts.map fun t => t.1) occ mrow (i + t.1.length) = _
    rw [hamounts, hmult, ih (i + t.1.length) occ mrow hoccRest hmrowRest
      (fun x hx => hwf x (List.mem_cons_of_mem _ hx))]

theorem names_length_eq_props_length (c : List Char) :
    (chunkNames c).length = (chunkProps c).length := by
  simp [chunkNames, chunkProps]

/-- Rendering the parse output of a single endmember: the 2D multiplicity
matrix passes the shape check, and the single rendered string is the
concatenation of the per-site blocks. -/
theorem sots_parse_render (chunks : List (List Char))
    (hne : ∀ c ∈ chunks, chunkNames c ≠ []) :
    site_occupancies_to_strings (chunks.map chunkNames)
      (.twoD [(((chunks.map chunkProps).zip (chunks.map chunkMult)).map
              fun sm => List.replicate sm.1.length sm.2).flatten])
      [(chunks.map chunkProps).flatten] =
      .ok [String.join (chunks.map fun c =>
        "[" ++ formula_to_string (pyDictOf ((chunkNames c).zip
          ((chunkProps c).map (· / (chunkProps c).sum)))) ++ "]"
        ++ (if |chunkMult c - 1| < 1 / 10 ^ 12 then ""
            else (ratStr (chunkMult c)).asString))] := by
  have hzip : (chunks.map chunkProps).zip (chunks.map chunkMult) =
      chunks.map fun c => (chunkProps c, chunkMult c) := List.zip_map' _ _ _
  have hmslen : ((((chunks.map chunkProps).zip (chunks.map chunkMult)).map
      fun sm => List.replicate sm.1.length sm.2).flatten).length =
      ((chunks.map chunkProps).flatten).length := by
    rw [hzip]
    simp only [List.length_flatten, List.map_map]
    congr 1
    refine List.map_congr_left fun c _ => ?_
    simp [Function.comp]
  simp only [site_occupancies_to_strings]
  rw [if_neg (by
    simp only [ne_eq, not_not, shape2, List.length_cons, List.length_nil,
      List.headD_cons, Prod.mk.injEq]
    exact ⟨trivial, hmslen⟩)]
  rw [pure_bind]
  simp only [List.enum, List.enumFrom, List.map_cons, List.map_nil, List.getD_cons_zero]
  refine congrArg Except.ok (congrArg (· :: []) ?_)
  have := renderSitesGo_eq (chunks.map fun c => (chunkNames c, chunkProps c, chunkMult c))
    0 ((chunks.map chunkProps).flatten)
    ((((chunks.map chunkProps).zip (chunks.map chunkMult)).map
      fun sm => List.replicate sm.1.length sm.2).flatten)
    (by
      simp only [List.drop_zero, List.map_map]
      exact congrArg List.flatten (List.map_congr_left fun c _ => rfl))
    (by
      rw [hzip]
      simp only [List.drop_zero, List.map_map]
      congr 1
      refine List.map_congr_left fun c _ => ?_
      show List.replicate (chunkProps c).length (chunkMult c)
        = List.replicate (chunkNames c).length (chunkMult c)
      rw [names_length_eq_props_length c])
    (by
      intro t ht
      obtain ⟨c, hc, rfl⟩ := List.mem_map.mp ht
      exact ⟨names_length_eq_props_length c, hne c hc⟩)
  rw [List.map_map] at this
  rw [show chunks.map ((fun (t : List String × List ℚ × ℚ) => t.1) ∘
      fun c => (chunkNames c, chunkProps c, chunkMult c)) = chunks.map chunkNames
    from List.map_congr_left fun c _ => rfl] at this
  rw [this, List.map_map]
  exact congrArg String.join (List.map_congr_left fun c _ => rfl)

/-! ## Species names, dictionaries and bulk sums -/

theorem upper_not_digit {c : Char} (h : isUpperAZ c = true) : isDigit09 c = false := by
  simp only [isUpperAZ, Bool.and_eq_true, decide_eq_true_eq] at h
  simp only [isDigit09, Bool.and_eq_false_iff, decide_eq_false_iff_not]
  omega

theorem tokensAux_subset :
    ∀ (s acc t : List Char), t ∈ tokensAux s acc → ∀ x ∈ t, x ∈ s ∨ x ∈ acc := by
  intro s
  induction s with
  | nil =>
    intro acc t ht x hx
    by_cases hacc : acc.isEmpty
    · rw [show tokensAux [] acc = [] by simp [tokensAux, hacc]] at ht
      simp at ht
    · rw [show tokensAux [] acc = [acc.reverse] by simp [tokensAux, hacc]] at ht
      rw [List.mem_singleton] at ht
      subst ht
      exact Or.inr (List.mem_reverse.mp hx)
  | cons c cs ih =>
    intro acc t ht x hx
    by_cases hcu : isUpperAZ c = true
    · by_cases hacc : acc.isEmpty
      · rw [show tokensAux (c :: cs) acc = tokensAux cs [c] by
          simp [tokensAux, hcu, hacc]] at ht
        rcases ih [c] t ht x hx with h | h
        · exact Or.inl (List.mem_cons_of_mem _ h)
        · rw [List.mem_singleton] at h
          exact Or.inl (h ▸ List.mem_cons_self _ _)
      · rw [show tokensAux (c :: cs) acc = acc.reverse :: tokensAux cs [c] by
          simp [tokensAux, hcu, hacc]] at ht
        rcases List.mem_cons.mp ht with rfl | ht'
        · exact Or.inr (List.mem_reverse.mp hx)
        · rcases ih [c] t ht' x hx with h | h
          · exact Or.inl (List.mem_cons_of_mem _ h)
          · rw [List.mem_singleton] at h
            exact Or.inl (h ▸ List.mem_cons_self _ _)
    · by_cases hacc : acc.isEmpty
      · rw [show tokensAux (c :: cs) acc = tokensAux cs [] by
          simp [tokensAux, hcu, hacc]] at ht
        rcases ih [] t ht x hx with h | h
        · exact Or.inl (List.mem_cons_of_mem _ h)
        · simp at h
      · rw [show tokensAux (c :: cs) acc = tokensAux cs (c :: acc) by
          simp [tokensAux, hcu, hacc]] at ht
        rcases ih (c :: acc) t ht x hx with h | h
        · exact Or.inl (List.mem_cons_of_mem _ h)
        · rcases List.mem_cons.mp h with rfl | h'
          · exact Or.inl (List.mem_cons_self _ _)
          · exact Or.inr h'

theorem findUpperTokens_subset (s t : List Char) (ht : t ∈ findUpperTokens s) :
    ∀ x ∈ t, x ∈ s := by
  intro x hx
  rcases tokensAux_subset s [] t ht x hx with h | h
  · exact h
  · simp at h

theorem takeWhile_all_of_all {α} {p q : α → Bool} :
    ∀ {l : List α}, l.all q = true → (l.takeWhile p).all q = true := by
  intro l h
  rw [List.all_eq_true] at h ⊢
  exact fun x hx => h x (List.takeWhile_sublist p |>.mem hx)

/-- The well-formedness a species name inherits from its token: uppercase
head, no further uppercase, no digits, and no bracket characters. -/
def goodName (e : String) : Prop :=
  (∃ u us, e.data = u :: us ∧ isUpperAZ u = true ∧
    us.all (fun c => !isUpperAZ c) = true) ∧
  e.data.all (fun c => !isDigit09 c) = true ∧
  '[' ∉ e.data ∧ ']' ∉ e.data

theorem speciesName_data (tok : List Char) :
    (speciesName tok).data = tok.takeWhile fun c => !isDigit09 c := rfl

theorem splitOnChar_parts_subset (c : Char) :
    ∀ (s : List Char), ∀ p ∈ splitOnChar c s, ∀ x ∈ p, x ∈ s := by
  intro s
  induction s with
  | nil =>
    intro p hp x hx
    rw [show splitOnChar c [] = [[]] from rfl, List.mem_singleton] at hp
    subst hp
    simp at hx
  | cons d ds ih =>
    intro p hp x hx
    by_cases hd : d = c
    · subst hd
      rw [splitOnChar_cons_sep] at hp
      rcases List.mem_cons.mp hp with rfl | hp'
      · simp at hx
      · exact List.mem_cons_of_mem _ (ih p hp' x hx)
    · rw [splitOnChar_cons_ne c d hd] at hp
      rcases hsp : splitOnChar c ds with _ | ⟨q, qs⟩
      · exact absurd hsp (splitOnChar_ne_nil c ds)
      · rw [hsp] at hp
        simp only [List.headD_cons, List.tail_cons] at hp
        rcases List.mem_cons.mp hp with rfl | hp'
        · rcases List.mem_cons.mp hx with rfl | hx'
          · exact List.mem_cons_self _ _
          · exact List.mem_cons_of_mem _
              (ih q (by rw [hsp]; exact List.mem_cons_self _ _) x hx')
        · exact List.mem_cons_of_mem _
            (ih p (by rw [hsp]; exact List.mem_cons_of_mem _ hp') x hx)

theorem chunkOccStr_subset (chunk : List Char) : ∀ x ∈ chunkOccStr chunk, x ∈ chunk := by
  intro x hx
  unfold chunkOccStr chunkParts at hx
  rcases hp : splitOnChar ']' chunk with _ | ⟨p, ps⟩
  · exact absurd hp (splitOnChar_ne_nil _ _)
  · rw [hp, List.headD_cons] at hx
    exact splitOnChar_parts_subset ']' chunk p
      (by rw [hp]; exact List.mem_cons_self _ _) x hx

theorem goodName_of_token (chunk tok : List Char)
    (hnoLB : '[' ∉ chunk) (htok : tok ∈ chunkTokens chunk) :
    goodName (speciesName tok) := by
  have hwf : wfBlock tok := findUpperTokens_wf _ tok htok
  have hsub : ∀ x ∈ tok, x ∈ chunkOccStr chunk := findUpperTokens_subset _ tok htok
  have hnoRB : ∀ x ∈ tok, x ≠ ']' := by
    intro x hx he
    have := splitOnChar_parts_not_mem ']' chunk (chunkOccStr chunk) ?_
    · exact this (he ▸ hsub x hx)
    · unfold chunkOccStr
      rcases hp : chunkParts chunk with _ | ⟨p, ps⟩
      · exact absurd hp (splitOnChar_ne_nil _ _)
      · rw [List.headD_cons]
        have : p ∈ chunkParts chunk := by rw [hp]; exact List.mem_cons_self _ _
        exact this
  obtain ⟨u, us, rfl, huu, hus⟩ := hwf
  have hud : isDigit09 u = false := upper_not_digit huu
  refine ⟨⟨u, us.takeWhile fun c => !isDigit09 c, ?_, huu, ?_⟩, ?_, ?_, ?_⟩
  · rw [speciesName_data, List.takeWhile_cons_of_pos (by simp [hud])]
  · exact takeWhile_all_of_all hus
  · rw [speciesName_data]
    rw [List.all_eq_true]
    intro x hx
    have := List.mem_takeWhile_imp hx
    simpa using this
  · rw [speciesName_data]
    intro hmem
    have hmem2 : '[' ∈ u :: us := (List.takeWhile_sublist _).mem hmem
    have hocc : '[' ∈ chunkOccStr chunk := hsub '[' hmem2
    exact hnoLB (chunkOccStr_subset chunk '[' hocc)
  · rw [speciesName_data]
    intro hmem
    have hmem2 : ']' ∈ u :: us := (List.takeWhile_sublist _).mem hmem
    exact hnoRB ']' hmem2 rfl

/-! ## Association-list dictionaries with distinct keys -/

theorem updateAssign_notMem :
    ∀ (f : Formula) (e : String) (v : ℚ), e ∉ f.map Prod.fst →
      updateAssign f e v = f ++ [(e, v)] := by
  intro f
  induction f with
  | nil => intro e v _; rfl
  | cons p ps ih =>
    intro e v h
    rw [List.map_cons, List.mem_cons] at h
    push_neg at h
    obtain ⟨p1, p2⟩ := p
    rw [show updateAssign ((p1, p2) :: ps) e v
        = if p1 = e then (p1, v) :: ps else (p1, p2) :: updateAssign ps e v from rfl,
      if_neg (fun he => h.1 he.symm), ih e v h.2, List.cons_append]

theorem pyDictOf_go :
    ∀ (l acc : Formula), ((acc ++ l).map Prod.fst).Nodup →
      l.foldl (fun d p => updateAssign d p.1 p.2) acc = acc ++ l := by
  intro l
  induction l with
  | nil => intro acc _; simp
  | cons p ps ih =>
    intro acc hnd
    rw [List.foldl_cons, updateAssign_notMem acc p.1 p.2 (by
      rw [List.map_append, List.nodup_append] at hnd
      intro hmem
      exact hnd.2.2 hmem (by simp)
      )]
    have := ih (acc ++ [p]) (by
      rw [List.append_assoc]
      simpa using hnd)
    rw [this, List.append_assoc]
    rfl

theorem pyDictOf_nodup (l : List (String × ℚ)) (h : (l.map Prod.fst).Nodup) :
    pyDictOf l = l :=
  pyDictOf_go l [] (by simpa using h)

theorem amt_cons_self (e : String) (v : ℚ) (f : Formula) :
    amt ((e, v) :: f) e = v := by
  simp [amt, lookupAmt, List.find?]

theorem amt_cons_ne (k e : String) (hne : k ≠ e) (v : ℚ) (f : Formula) :
    amt ((k, v) :: f) e = amt f e := by
  simp only [amt, lookupAmt, List.find?]
  rw [show (decide (k = e)) = false by simpa using hne]

theorem amt_map_pairs {β} (nm : β → String) (pr : β → ℚ) :
    ∀ (l : List β), (l.map nm).Nodup → ∀ t ∈ l,
      amt (l.map fun x => (nm x, pr x)) (nm t) = pr t := by
  intro l
  induction l with
  | nil => intro _ t ht; simp at ht
  | cons b bs ih =>
    intro hnd t ht
    rw [List.map_cons, List.nodup_cons] at hnd
    rcases List.mem_cons.mp ht with rfl | ht'
    · rw [List.map_cons, amt_cons_self]
    · rw [List.map_cons, amt_cons_ne _ _
        (fun he => hnd.1 (by rw [he]; exact List.mem_map_of_mem nm ht'))]
      exact ih hnd.2 t ht'

theorem lookupAmt_isSome_iff (f : Formula) (e : String) :
    (lookupAmt f e).isSome = true ↔ e ∈ f.map Prod.fst := by
  unfold lookupAmt
  rw [Option.isSome_map']
  rw [List.find?_isSome]
  constructor
  · rintro ⟨p, hp, he⟩
    rw [decide_eq_true_eq] at he
    exact he ▸ List.mem_map_of_mem _ hp
  · intro hm
    obtain ⟨p, hp, he⟩ := List.mem_map.mp hm
    exact ⟨p, hp, by simpa using he⟩

theorem amt_updateAdd (f : Formula) (n : String) (v : ℚ) (e : String) :
    amt (updateAdd f n v) e = amt f e + if n = e then v else 0 := by
  induction f with
  | nil =>
    by_cases hne : n = e
    · subst hne
      simp [updateAdd, amt_cons_self, amt, lookupAmt]
    · rw [show updateAdd [] n v = [(n, v)] from rfl, amt_cons_ne n e hne, if_neg hne]
      simp [amt, lookupAmt]
  | cons p ps ih =>
    obtain ⟨k, w⟩ := p
    rw [show updateAdd ((k, w) :: ps) n v
        = if k = n then (k, w + v) :: ps else (k, w) :: updateAdd ps n v from rfl]
    by_cases hkn : k = n
    · subst hkn
      rw [if_pos rfl]
      by_cases hke : k = e
      · subst hke
        rw [amt_cons_self, amt_cons_self, if_pos rfl]
      · rw [amt_cons_ne _ _ hke, amt_cons_ne _ _ hke, if_neg hke]
        ring
    · rw [if_neg hkn]
      by_cases hke : k = e
      · subst hke
        rw [amt_cons_self, amt_cons_self, if_neg fun he => hkn he.symm]
        ring
      · rw [amt_cons_ne _ _ hke, amt_cons_ne _ _ hke, ih]

theorem amt_foldl_updateAdd {β} (nm : β → String) (vl : β → ℚ) :
    ∀ (l : List β) (f : Formula) (e : String),
      amt (l.foldl (fun fo t => updateAdd fo (nm t) (vl t)) f) e =
        amt f e + ((l.filter fun t => nm t = e).map vl).sum := by
  intro l
  induction l with
  | nil => intro f e; simp
  | cons b bs ih =>
    intro f e
    rw [List.foldl_cons, ih, amt_updateAdd]
    by_cases hbe : nm b = e
    · rw [if_pos hbe, List.filter_cons_of_pos (by simpa using hbe), List.map_cons,
        List.sum_cons]
      ring
    · rw [if_neg hbe, List.filter_cons_of_neg (by simpa using hbe)]
      ring

theorem sum_filter_nodup {β} (nm : β → String) (vl : β → ℚ) (g : String → ℚ) :
    ∀ (l : List β), (l.map nm).Nodup → (∀ t ∈ l, vl t = g (nm t)) → ∀ e,
      ((l.filter fun t => nm t = e).map vl).sum =
        if e ∈ l.map nm then g e else 0 := by
  intro l
  induction l with
  | nil => intro _ _ e; simp
  | cons b bs ih =>
    intro hnd hg e
    rw [List.map_cons, List.nodup_cons] at hnd
    have hgb := hg b (List.mem_cons_self _ _)
    have ihr := ih hnd.2 (fun t ht => hg t (List.mem_cons_of_mem _ ht)) e
    by_cases hbe : nm b = e
    · rw [List.filter_cons_of_pos (by simpa using hbe), List.map_cons, List.sum_cons, ihr,
        if_neg (fun hm => hnd.1 (hbe ▸ hm)), List.map_cons,
        if_pos (show e ∈ nm b :: bs.map nm by rw [← hbe]; exact List.mem_cons_self _ _)]
      rw [hgb, hbe]
      ring
    · rw [List.filter_cons_of_neg (by simpa using hbe), ihr, List.map_cons]
      by_cases hmem : e ∈ bs.map nm
      · rw [if_pos hmem, if_pos (List.mem_cons_of_mem _ hmem)]
      · rw [if_neg hmem, if_neg (by
          intro hm
          rcases List.mem_cons.mp hm with he | he
          · exact hbe he.symm
          · exact hmem he)]

/-! ## The rendered occupancy string, reparsed -/

/-- The keys rendered by `formula_to_string`, in rendering order: the
visible recognized elements in canonical order, then the visible
unrecognized keys in insertion order. -/
def renderedKeys (f : Formula) : List String :=
  IUPAC_element_order.filter (visibleIn f) ++
  ((f.map Prod.fst).filter fun e => !IUPAC_element_order.contains e && visibleIn f e)

theorem join_append (a b : List String) :
    String.join (a ++ b) = String.join a ++ String.join b := by
  apply String.ext
  rw [String.data_append, join_data, join_data, join_data, List.map_append,
    List.flatten_append]

theorem formula_to_string_join (f : Formula) :
    formula_to_string f =
      String.join ((renderedKeys f).map fun e => amountBlock e (amt f e)) := by
  unfold formula_to_string renderedKeys
  rw [List.map_append, join_append]

theorem amountBlock_data (e : String) (v : ℚ) :
    (amountBlock e v).data =
      if |v - 1| < 1 / 10 ^ 12 then e.data else e.data ++ ratStr v := by
  unfold amountBlock
  by_cases h : |v - 1| < 1 / 10 ^ 12
  · rw [if_pos h, if_pos h]
  · rw [if_neg h, if_neg h, String.data_append]
    rfl

theorem string_contains_iff (l : List String) (e : String) :
    l.contains e = true ↔ e ∈ l := by
  simp

theorem IUPAC_order_nodup : IUPAC_element_order.Nodup := by decide

theorem mem_renderedKeys_iff (f : Formula) (e : String) :
    e ∈ renderedKeys f ↔ e ∈ f.map Prod.fst ∧ visibleIn f e = true := by
  unfold renderedKeys
  rw [List.mem_append, List.mem_filter, List.mem_filter]
  constructor
  · rintro (⟨_, hv⟩ | ⟨hk, hv⟩)
    · refine ⟨(lookupAmt_isSome_iff f e).mp ?_, hv⟩
      unfold visibleIn at hv
      rw [Bool.and_eq_true] at hv
      exact hv.1
    · rw [Bool.and_eq_true] at hv
      exact ⟨hk, hv.2⟩
  · rintro ⟨hk, hv⟩
    by_cases hIU : e ∈ IUPAC_element_order
    · exact Or.inl ⟨hIU, hv⟩
    · refine Or.inr ⟨hk, ?_⟩
      rw [Bool.and_eq_true]
      refine ⟨?_, hv⟩
      rw [Bool.not_eq_true']
      rw [← Bool.not_eq_true]
      intro hc
      exact hIU ((string_contains_iff _ _).mp hc)

theorem renderedKeys_nodup (f : Formula) (hk : (f.map Prod.fst).Nodup) :
    (renderedKeys f).Nodup := by
  unfold renderedKeys
  rw [List.nodup_append]
  refine ⟨IUPAC_order_nodup.filter _, hk.filter _, ?_⟩
  intro e he1 he2
  rw [List.mem_filter] at he1 he2
  have hb := he2.2
  rw [Bool.and_eq_true] at hb
  have hcon := hb.1
  rw [Bool.not_eq_true'] at hcon
  have := (string_contains_iff IUPAC_element_order e).mpr he1.1
  rw [hcon] at this
  exact Bool.noConfusion this

theorem intStr_ofNat (n : ℕ) : intStr (Int.ofNat n) = natStr n := rfl

theorem intStr_negSucc (m : ℕ) : intStr (Int.negSucc m) = '-' :: natStr (m + 1) := rfl

theorem ratStr_ne_nil (q : ℚ) : ratStr q ≠ [] := by
  unfold ratStr
  by_cases hden : q.den = 1
  · rw [if_pos hden]
    rcases hq : q.num with m | m
    · rw [intStr_ofNat]
      exact natStr_ne_nil m
    · rw [intStr_negSucc]
      simp
  · rw [if_neg hden]
    rcases hq : q.num with m | m
    · rw [intStr_ofNat]
      intro h
      exact natStr_ne_nil m (List.append_eq_nil.mp h).1
    · rw [intStr_negSucc]
      simp

theorem ratStr_head_digit_pos (v : ℚ) (hv : 0 < v) :
    ∃ c cs, ratStr v = c :: cs ∧ isDigit09 c = true := by
  have hnum : 0 < v.num := Rat.num_pos.mpr hv
  unfold ratStr
  rcases hq : v.num with m | m
  · obtain ⟨c, cs, hcs, hcd⟩ := natStr_head_digit m
    by_cases hden : v.den = 1
    · rw [if_pos hden, intStr_ofNat, hcs]
      exact ⟨c, cs, rfl, hcd⟩
    · rw [if_neg hden, intStr_ofNat, hcs]
      exact ⟨c, cs ++ '/' :: natStr v.den, rfl, hcd⟩
  · rw [hq] at hnum
    exact absurd hnum (by simp [Int.negSucc_not_pos])

theorem block_speciesName_bare (e : String) (hg : goodName e) :
    speciesName e.data = e := by
  unfold speciesName
  rw [takeWhile_eq_self_of_all hg.2.1]
  exact String.ext rfl

theorem block_speciesName_val (e : String) (hg : goodName e) (v : ℚ) (hv : 0 < v) :
    speciesName (e.data ++ ratStr v) = e := by
  unfold speciesName
  rw [takeWhile_append_all _ hg.2.1]
  obtain ⟨c, cs, hcs, hcd⟩ := ratStr_head_digit_pos v hv
  rw [hcs, List.takeWhile_cons_of_neg (by simp [hcd]), List.append_nil]
  exact String.ext rfl

theorem block_prop_bare (e : String) (hg : goodName e) :
    speciesProp e.data = some 1 := by
  unfold speciesProp speciesPropStr
  rw [dropWhile_eq_nil_of_all hg.2.1, if_pos rfl]

theorem block_prop_val (e : String) (hg : goodName e) (v : ℚ) (hv : 0 < v) :
    speciesProp (e.data ++ ratStr v) = some v := by
  unfold speciesProp speciesPropStr
  obtain ⟨c, cs, hcs, hcd⟩ := ratStr_head_digit_pos v hv
  have hdrop : (e.data ++ ratStr v).dropWhile (fun x => !isDigit09 x) = ratStr v := by
    rw [dropWhile_append_all _ hg.2.1 (by
      rw [hcs, List.dropWhile_cons_of_neg (by simp [hcd])])]
  rw [hdrop, if_neg (ratStr_ne_nil v), pyFraction_ratStr]

theorem amountBlock_wfBlock (e : String) (v : ℚ) (hg : goodName e) :
    wfBlock (amountBlock e v).data ∧ '[' ∉ (amountBlock e v).data ∧
      ']' ∉ (amountBlock e v).data := by
  obtain ⟨⟨u, us, hus, huu, husnu⟩, hnd, hnlb, hnrb⟩ := hg
  rw [amountBlock_data]
  by_cases h : |v - 1| < 1 / 10 ^ 12
  · rw [if_pos h]
    exact ⟨⟨u, us, hus, huu, husnu⟩, hnlb, hnrb⟩
  · rw [if_neg h]
    refine ⟨⟨u, us ++ ratStr v, by rw [hus]; rfl, huu, ?_⟩, ?_, ?_⟩
    · rw [List.all_append, husnu, ratStr_no_upper]
      rfl
    · intro hm
      rcases List.mem_append.mp hm with hm' | hm'
      · exact hnlb hm'
      · exact ratStr_not_mem v '[' (by decide) (by decide) (by decide) hm'
    · intro hm
      rcases List.mem_append.mp hm with hm' | hm'
      · exact hnrb hm'
      · exact ratStr_not_mem v ']' (by decide) (by decide) (by decide) hm'

theorem occ_tokens (d : Formula) (hgood : ∀ e ∈ renderedKeys d, goodName e) :
    findUpperTokens ((formula_to_string d).data) =
      (renderedKeys d).map fun e => (amountBlock e (amt d e)).data := by
  rw [formula_to_string_join, join_data, List.map_map]
  exact findUpperTokens_blocks _ (by
    intro b hb
    obtain ⟨e, he, rfl⟩ := List.mem_map.mp hb
    exact (amountBlock_wfBlock e (amt d e) (hgood e he)).1)

theorem occ_no_mem (d : Formula) (hgood : ∀ e ∈ renderedKeys d, goodName e)
    (x : Char) (hx : x = '[' ∨ x = ']') : x ∉ (formula_to_string d).data := by
  rw [formula_to_string_join, join_data]
  intro hm
  obtain ⟨b, hb, hxb⟩ := List.mem_flatten.mp hm
  rw [List.map_map] at hb
  obtain ⟨e, he, rfl⟩ := List.mem_map.mp hb
  have := amountBlock_wfBlock e (amt d e) (hgood e he)
  rcases hx with rfl | rfl
  · exact this.2.1 hxb
  · exact this.2.2 hxb

/-- Reparsing one rendered site block: the tokens are the rendered species
blocks, the names are the rendered keys, the proportions look up the site
dictionary, and the multiplicity is recovered exactly. -/
theorem rendered_chunk_facts (d : Formula) (mult : ℚ) (mstr ck : List Char)
    (hmstr : mstr = if |mult - 1| < 1 / 10 ^ 12 then [] else ratStr mult)
    (hck : ck = (formula_to_string d).data ++ ']' :: mstr)
    (hgood : ∀ e ∈ renderedKeys d, goodName e)
    (hvals : ∀ e ∈ renderedKeys d,
      amt d e = 1 ∨ (0 < amt d e ∧ ¬(|amt d e - 1| < 1 / 10 ^ 12)))
    (hmult : mult = 1 ∨ 1 / 10 ^ 12 ≤ |mult - 1|) :
    chunkTokens ck = (renderedKeys d).map (fun e => (amountBlock e (amt d e)).data) ∧
    chunkNames ck = renderedKeys d ∧
    chunkMult ck = mult ∧
    chunkOk ck ∧
    (∀ t ∈ chunkTokens ck, propD t = amt d (speciesName t)) ∧
    '[' ∉ ck := by
  have hmnu : mstr.all (fun c => !isUpperAZ c) = true := by
    subst hmstr
    by_cases habs : |mult - 1| < 1 / 10 ^ 12
    · rw [if_pos habs]
      rfl
    · rw [if_neg habs]
      exact ratStr_no_upper mult
  have hmRB : ']' ∉ mstr := by
    subst hmstr
    by_cases habs : |mult - 1| < 1 / 10 ^ 12
    · rw [if_pos habs]
      simp
    · rw [if_neg habs]
      exact ratStr_not_mem mult ']' (by decide) (by decide) (by decide)
  have hmLB : '[' ∉ mstr := by
    subst hmstr
    by_cases habs : |mult - 1| < 1 / 10 ^ 12
    · rw [if_pos habs]
      simp
    · rw [if_neg habs]
      exact ratStr_not_mem mult '[' (by decide) (by decide) (by decide)
  have hoccRB : ']' ∉ (formula_to_string d).data :=
    occ_no_mem d hgood ']' (Or.inr rfl)
  have hoccLB : '[' ∉ (formula_to_string d).data :=
    occ_no_mem d hgood '[' (Or.inl rfl)
  have hparts : chunkParts ck = [(formula_to_string d).data, mstr] := by
    unfold chunkParts
    rw [hck, splitOnChar_sep ']' _ _ hoccRB, splitOnChar_not_mem hmRB]
  have hoccstr : chunkOccStr ck = (formula_to_string d).data := by
    unfold chunkOccStr
    rw [hparts]
    rfl
  have hmultstr : chunkMultStr ck = mstr := by
    unfold chunkMultStr chunkTail
    rw [hparts]
    exact takeWhile_eq_self_of_all hmnu
  have htok : chunkTokens ck =
      (renderedKeys d).map (fun e => (amountBlock e (amt d e)).data) := by
    unfold chunkTokens
    rw [hoccstr]
    exact occ_tokens d hgood
  have hblock : ∀ e ∈ renderedKeys d,
      speciesName (amountBlock e (amt d e)).data = e ∧
      speciesProp (amountBlock e (amt d e)).data = some (amt d e) := by
    intro e he
    rw [amountBlock_data]
    by_cases habs : |amt d e - 1| < 1 / 10 ^ 12
    · rw [if_pos habs]
      have h1 : amt d e = 1 := by
        rcases hvals e he with h | h
        · exact h
        · exact absurd habs h.2
      refine ⟨block_speciesName_bare e (hgood e he), ?_⟩
      rw [block_prop_bare e (hgood e he), h1]
    · rw [if_neg habs]
      have h0 : 0 < amt d e := by
        rcases hvals e he with h | h
        · exact absurd (by rw [h]; norm_num) habs
        · exact h.1
      exact ⟨block_speciesName_val e (hgood e he) _ h0,
        block_prop_val e (hgood e he) _ h0⟩
  have hnames : chunkNames ck = renderedKeys d := by
    unfold chunkNames
    rw [htok, List.map_map]
    refine (List.map_congr_left fun e he => ?_).trans (List.map_id _)
    exact (hblock e he).1
  have hmult' : chunkMult ck = mult := by
    unfold chunkMult
    rw [hmultstr]
    subst hmstr
    by_cases habs : |mult - 1| < 1 / 10 ^ 12
    · rw [if_pos habs, if_pos rfl]
      rcases hmult with h | h
      · exact h.symm
      · exact absurd habs (not_lt.mpr h)
    · rw [if_neg habs, if_neg (ratStr_ne_nil mult), pyFraction_ratStr]
      rfl
  refine ⟨htok, hnames, hmult', ⟨?_, ?_, ?_⟩, ?_, ?_⟩
  · unfold chunkOk at *
    rw [hparts]
    simp
  · rw [hmultstr]
    subst hmstr
    by_cases habs : |mult - 1| < 1 / 10 ^ 12
    · rw [if_pos habs]
      exact Or.inl rfl
    · rw [if_neg habs, pyFraction_ratStr]
      exact Or.inr rfl
  · intro t ht
    rw [htok] at ht
    obtain ⟨e, he, rfl⟩ := List.mem_map.mp ht
    rw [(hblock e he).2]
    rfl
  · intro t ht
    rw [htok] at ht
    obtain ⟨e, he, rfl⟩ := List.mem_map.mp ht
    unfold propD
    rw [(hblock e he).2, (hblock e he).1]
    rfl
  · rw [hck]
    intro hm
    rcases List.mem_append.mp hm with hm' | hm'
    · exact hoccLB hm'
    · rcases List.mem_cons.mp hm' with he | hm''
      · exact absurd he (by decide)
      · exact hmLB hm''

/-- The bulk formula built by folding the per-chunk token folds, as a sum. -/
theorem amt_chunks_fold :
    ∀ (cl : List (List Char)) (f : Formula) (e : String),
      amt (cl.foldl (fun fo c => chunkBulkFold c fo) f) e =
        amt f e + (cl.map fun c =>
          (((chunkTokens c).filter fun t => speciesName t = e).map
            fun t => chunkMult c * propD t).sum).sum := by
  intro cl
  induction cl with
  | nil =>
    intro f e
    simp
  | cons c cs ih =>
    intro f e
    rw [List.foldl_cons, ih, List.map_cons, List.sum_cons]
    rw [show amt (chunkBulkFold c f) e
        = amt f e + (((chunkTokens c).filter fun t => speciesName t = e).map
            fun t => chunkMult c * propD t).sum from
      amt_foldl_updateAdd speciesName (fun t => chunkMult c * propD t) (chunkTokens c) f e]
    ring

/-- One original chunk against its rendered block: the rendered block
reparses successfully and contributes the same per-element bulk sum. -/
theorem chunk_roundtrip (c : List Char) (d : Formula) (mstr ck : List Char)
    (hd : d = pyDictOf ((chunkNames c).zip (chunkProps c)))
    (hmstr : mstr = if |chunkMult c - 1| < 1 / 10 ^ 12 then []
      else ratStr (chunkMult c))
    (hck : ck = (formula_to_string d).data ++ ']' :: mstr)
    (hnoLB : '[' ∉ c)
    (hnd : (chunkNames c).Nodup)
    (hth : ∀ p ∈ chunkProps c, p = 0 ∨ p = 1 ∨
      (1 / 10 ^ 12 < p ∧ p < 1 - 1 / 10 ^ 12))
    (hm : chunkMult c = 1 ∨ 1 / 10 ^ 12 ≤ |chunkMult c - 1|) :
    chunkOk ck ∧ (chunkNames ck).Nodup ∧ '[' ∉ ck ∧
    ∀ e, (((chunkTokens ck).filter fun t => speciesName t = e).map
        fun t => chunkMult ck * propD t).sum =
      (((chunkTokens c).filter fun t => speciesName t = e).map
        fun t => chunkMult c * propD t).sum := by
  have hd_pairs : d = (chunkTokens c).map fun t => (speciesName t, propD t) := by
    rw [hd, show chunkNames c = (chunkTokens c).map speciesName from rfl,
      show chunkProps c = (chunkTokens c).map propD from rfl, List.zip_map']
    exact pyDictOf_nodup _ (by rw [List.map_map]; exact hnd)
  have hkeys : d.map Prod.fst = chunkNames c := by
    rw [hd_pairs, List.map_map]
    rfl
  have hkeysnd : (d.map Prod.fst).Nodup := by
    rw [hkeys]
    exact hnd
  have hamt : ∀ t ∈ chunkTokens c, amt d (speciesName t) = propD t := by
    intro t ht
    rw [hd_pairs]
    exact amt_map_pairs speciesName propD (chunkTokens c) hnd t ht
  have hgood : ∀ e ∈ renderedKeys d, goodName e := by
    intro e he
    have hkmem := ((mem_renderedKeys_iff d e).mp he).1
    rw [hkeys] at hkmem
    obtain ⟨t, ht, rfl⟩ := List.mem_map.mp hkmem
    exact goodName_of_token c t hnoLB ht
  have hvals : ∀ e ∈ renderedKeys d,
      amt d e = 1 ∨ (0 < amt d e ∧ ¬(|amt d e - 1| < 1 / 10 ^ 12)) := by
    intro e he
    obtain ⟨hkmem, hvis⟩ := (mem_renderedKeys_iff d e).mp he
    rw [hkeys] at hkmem
    obtain ⟨t, ht, rfl⟩ := List.mem_map.mp hkmem
    rw [hamt t ht]
    have hp := hth (propD t) (List.mem_map_of_mem propD ht)
    rcases hp with h0 | h1 | hint
    · exfalso
      unfold visibleIn at hvis
      rw [Bool.and_eq_true] at hvis
      have h2 := hvis.2
      rw [decide_eq_true_eq, hamt t ht, h0] at h2
      norm_num at h2
    · exact Or.inl h1
    · refine Or.inr ⟨by linarith [hint.1], ?_⟩
      rw [abs_sub_comm, abs_of_pos (by linarith [hint.2] : (0:ℚ) < 1 - propD t)]
      intro hlt
      linarith [hint.2]
  obtain ⟨htok, hnames, hmult, hokck, hprops, hLB⟩ :=
    rendered_chunk_facts d (chunkMult c) mstr ck hmstr hck hgood hvals hm
  refine ⟨hokck, by rw [hnames]; exact renderedKeys_nodup d hkeysnd, hLB, ?_⟩
  intro e
  rw [sum_filter_nodup speciesName _ (fun x => chunkMult c * amt d x) (chunkTokens ck)
      (by rw [show (chunkTokens ck).map speciesName = chunkNames ck from rfl, hnames]
          exact renderedKeys_nodup d hkeysnd)
      (by intro t ht
          show chunkMult ck * propD t = chunkMult c * amt d (speciesName t)
          rw [hmult, hprops t ht])]
  rw [sum_filter_nodup speciesName _ (fun x => chunkMult c * amt d x) (chunkTokens c)
      hnd (by
        intro t ht
        show chunkMult c * propD t = chunkMult c * amt d (speciesName t)
        rw [hamt t ht])]
  rw [show (chunkTokens ck).map speciesName = chunkNames ck from rfl, hnames,
    show (chunkTokens c).map speciesName = chunkNames c from rfl]
  by_cases hin' : e ∈ renderedKeys d
  · rw [if_pos hin', if_pos (by
      have := ((mem_renderedKeys_iff d e).mp hin').1
      rw [hkeys] at this
      exact this)]
  · rw [if_neg hin']
    by_cases hin : e ∈ chunkNames c
    · rw [if_pos hin]
      have hnv : ¬ visibleIn d e = true := fun hv =>
        hin' ((mem_renderedKeys_iff d e).mpr ⟨by rw [hkeys]; exact hin, hv⟩)
      obtain ⟨t, ht, rfl⟩ := List.mem_map.mp hin
      have hpd := hamt t ht
      unfold visibleIn at hnv
      rw [Bool.and_eq_true] at hnv
      push_neg at hnv
      have hsome : (lookupAmt d (speciesName t)).isSome = true :=
        (lookupAmt_isSome_iff d _).mpr (by rw [hkeys]; exact List.mem_map_of_mem _ ht)
      have h2 := hnv hsome
      rw [ne_eq, decide_eq_true_eq] at h2
      push_neg at h2
      rw [hpd] at h2
      have hcases := hth (propD t) (List.mem_map_of_mem propD ht)
      rcases hcases with h0 | h1 | hint
      · show (0:ℚ) = chunkMult c * amt d (speciesName t)
        rw [hpd, h0, mul_zero]
      · exfalso
        rw [h1] at h2
        norm_num at h2
      · exfalso
        rw [abs_of_pos (by linarith [hint.1] : (0:ℚ) < propD t)] at h2
        linarith [hint.1]
    · rw [if_neg hin]

theorem block_data (A B : String) :
    ("[" ++ A ++ "]" ++ B).data = '[' :: (A.data ++ ']' :: B.data) := by
  simp [String.data_append, List.append_assoc]

theorem if_string_data (P : Prop) [Decidable P] (s : String) :
    (if P then "" else s).data = if P then [] else s.data := by
  by_cases hP : P
  · rw [if_pos hP, if_pos hP]
  · rw [if_neg hP, if_neg hP]

/-! # The claims -/

/-- C3 (amended): for a single-endmember site-formula string whose
bracketed chunks all parse with pairwise-distinct species per site, at most
26 sites, per-site occupancies summing to one with every occupancy equal to
0, to 1, or strictly between the renderer's `1e-12` guard bands, and every
site multiplicity either exactly 1 or at least `1e-12` away from 1,
parsing, rendering the parsed site species / multiplicities / occupancies
with `site_occupancies_to_strings`, and reparsing the rendered string
preserves the endmember's bulk formula exactly. -/
theorem c3_parse_render_round_trip (S : String) (chunks : List (List Char))
    (hchunks : (splitOnChar '[' S.data).drop 1 = chunks)
    (hok : ∀ c ∈ chunks, chunkOk c ∧ (chunkNames c).Nodup)
    (h26 : chunks.length ≤ 26)
    (hsum : ∀ c ∈ chunks, (chunkProps c).sum = 1)
    (hth : ∀ c ∈ chunks, ∀ p ∈ chunkProps c,
      p = 0 ∨ p = 1 ∨ (1 / 10 ^ 12 < p ∧ p < 1 - 1 / 10 ^ 12))
    (hm : ∀ c ∈ chunks, chunkMult c = 1 ∨ 1 / 10 ^ 12 ≤ |chunkMult c - 1|) :
    ∃ (P P' : SolutionChemistry) (r : String),
      process_solution_chemistry [S] = .ok P ∧
      site_occupancies_to_strings P.sites (.twoD P.site_multiplicities)
        P.endmember_occupancies = .ok [r] ∧
      process_solution_chemistry [r] = .ok P' ∧
      ∀ e, amt (P'.solution_formulae.headD []) e =
        amt (P.solution_formulae.headD []) e := by
  have hnoLB : ∀ c ∈ chunks, '[' ∉ c := by
    intro c hc
    have hmem : c ∈ splitOnChar '[' S.data := by
      rw [← hchunks] at hc
      exact List.mem_of_mem_drop hc
    exact splitOnChar_parts_not_mem '[' S.data c hmem
  have hne : ∀ c ∈ chunks, chunkNames c ≠ [] := by
    intro c hc hnil
    have htnil : chunkTokens c = [] := List.map_eq_nil.mp hnil
    have hpnil : chunkProps c = [] := by
      rw [show chunkProps c = (chunkTokens c).map propD from rfl, htnil]
      rfl
    have hs := hsum c hc
    rw [hpnil] at hs
    norm_num at hs
  have hP := process_single S chunks hchunks hok h26
  have hr0 := sots_parse_render chunks hne
  have hdict : ∀ c ∈ chunks,
      pyDictOf ((chunkNames c).zip ((chunkProps c).map (· / (chunkProps c).sum)))
        = pyDictOf ((chunkNames c).zip (chunkProps c)) := by
    intro c hc
    rw [hsum c hc]
    rw [show (chunkProps c).map (· / (1 : ℚ)) = chunkProps c from
      (List.map_congr_left fun p _ => div_one p).trans (List.map_id _)]
  rw [show (chunks.map fun c =>
        "[" ++ formula_to_string (pyDictOf ((chunkNames c).zip
          ((chunkProps c).map (· / (chunkProps c).sum)))) ++ "]"
        ++ (if |chunkMult c - 1| < 1 / 10 ^ 12 then ""
            else (ratStr (chunkMult c)).asString))
      = (chunks.map fun c =>
        "[" ++ formula_to_string (pyDictOf ((chunkNames c).zip (chunkProps c))) ++ "]"
        ++ (if |chunkMult c - 1| < 1 / 10 ^ 12 then ""
            else (ratStr (chunkMult c)).asString)) from
    List.map_congr_left fun c hc => by rw [hdict c hc]] at hr0
  have hCR := fun c (hc : c ∈ chunks) =>
    chunk_roundtrip c (pyDictOf ((chunkNames c).zip (chunkProps c)))
      (if |chunkMult c - 1| < 1 / 10 ^ 12 then [] else ratStr (chunkMult c))
      ((formula_to_string (pyDictOf ((chunkNames c).zip (chunkProps c)))).data
        ++ ']' :: (if |chunkMult c - 1| < 1 / 10 ^ 12 then []
                   else ratStr (chunkMult c)))
      rfl rfl rfl (hnoLB c hc) (hok c hc).2 (hth c hc) (hm c hc)
  have hrdata : (String.join (chunks.map fun c =>
      "[" ++ formula_to_string (pyDictOf ((chunkNames c).zip (chunkProps c))) ++ "]"
      ++ (if |chunkMult c - 1| < 1 / 10 ^ 12 then ""
          else (ratStr (chunkMult c)).asString))).data
      = ((chunks.map fun c =>
          (formula_to_string (pyDictOf ((chunkNames c).zip (chunkProps c)))).data
          ++ ']' :: (if |chunkMult c - 1| < 1 / 10 ^ 12 then []
                     else ratStr (chunkMult c))).map ('[' :: ·)).flatten := by
    rw [join_data, List.map_map, List.map_map]
    congr 1
    refine List.map_congr_left fun c _ => ?_
    show ("[" ++ _ ++ "]" ++ _).data = _
    rw [block_data, if_string_data]
    rfl
  have hsplit : (splitOnChar '[' (String.join (chunks.map fun c =>
      "[" ++ formula_to_string (pyDictOf ((chunkNames c).zip (chunkProps c))) ++ "]"
      ++ (if |chunkMult c - 1| < 1 / 10 ^ 12 then ""
          else (ratStr (chunkMult c)).asString))).data).drop 1
      = chunks.map fun c =>
          (formula_to_string (pyDictOf ((chunkNames c).zip (chunkProps c)))).data
          ++ ']' :: (if |chunkMult c - 1| < 1 / 10 ^ 12 then []
                     else ratStr (chunkMult c)) := by
    rw [hrdata, splitOnChar_flattened_groups '[' _ (by
      intro b hb
      obtain ⟨c, hc, rfl⟩ := List.mem_map.mp hb
      exact (hCR c hc).2.2.1)]
    rfl
  have hok' : ∀ ck ∈ chunks.map fun c =>
      (formula_to_string (pyDictOf ((chunkNames c).zip (chunkProps c)))).data
      ++ ']' :: (if |chunkMult c - 1| < 1 / 10 ^ 12 then []
                 else ratStr (chunkMult c)),
      chunkOk ck ∧ (chunkNames ck).Nodup := by
    intro ck hck
    obtain ⟨c, hc, rfl⟩ := List.mem_map.mp hck
    exact ⟨(hCR c hc).1, (hCR c hc).2.1⟩
  have h26' : (chunks.map fun c =>
      (formula_to_string (pyDictOf ((chunkNames c).zip (chunkProps c)))).data
      ++ ']' :: (if |chunkMult c - 1| < 1 / 10 ^ 12 then []
                 else ratStr (chunkMult c))).length ≤ 26 := by
    rw [List.length_map]
    exact h26
  have hP' := process_single (String.join (chunks.map fun c =>
      "[" ++ formula_to_string (pyDictOf ((chunkNames c).zip (chunkProps c))) ++ "]"
      ++ (if |chunkMult c - 1| < 1 / 10 ^ 12 then ""
          else (ratStr (chunkMult c)).asString))) _ hsplit hok' h26'
  refine ⟨_, _, _, hP, hr0, hP', ?_⟩
  intro e
  show amt (((chunks.map fun c =>
      (formula_to_string (pyDictOf ((chunkNames c).zip (chunkProps c)))).data
      ++ ']' :: (if |chunkMult c - 1| < 1 / 10 ^ 12 then []
                 else ratStr (chunkMult c))).foldl
        (fun fo c => chunkBulkFold c fo) [])) e
    = amt (chunks.foldl (fun fo c => chunkBulkFold c fo) []) e
  rw [amt_chunks_fold, amt_chunks_fold]
  congr 1
  rw [List.map_map]
  exact congrArg List.sum (List.map_congr_left fun c hc => (hCR c hc).2.2.2 e)

/-- C1 — the claim says the element tokens after a bracketed site group's
multiplicity (`Si3O12` in `[Mg]3[Al]2Si3O12`) are parsed and added to the
endmember's `solution_formulae` entry.  The code does not do this in
Python 3: `str(filter(None, site_split[1]))` is the repr of a filter
object (see `pyFilterRepr`), which contains no uppercase character, so the
after-site loop never runs and `Si` and `O` are silently dropped — against
the function's own docstring, which promises the bulk composition of each
endmember.  This theorem evaluates the embedded code at the failing input:
the parsed bulk formula holds only the in-site species `Mg` and `Al`, and
looking up `Si` and `O` finds nothing. -/
theorem c1_post_site_elements_dropped :
    process_solution_chemistry ["[Mg]3[Al]2Si3O12"] =
      .ok { solution_formulae := [[("Mg", 3), ("Al", 2)]]
            n_sites := 2
            sites := [["Mg"], ["Al"]]
            site_names := ["Mg_A", "Al_B"]
            n_occupancies := 2
            site_multiplicities := [[3, 2]]
            endmember_occupancies := [[1, 1]]
            endmember_noccupancies := [[3, 2]] } ∧
    lookupAmt [("Mg", 3), ("Al", 2)] "Si" = none ∧
    lookupAmt [("Mg", 3), ("Al", 2)] "O" = none := by
  refine ⟨by with_unfolding_all rfl, rfl, rfl⟩

/-- C2: parsing `['[Mg]3[Al]2Si3O12', '[Fe]3[Al]2Si3O12']` yields
`n_sites = 2`, `site_names = ['Mg_A','Fe_A','Al_B']`,
`endmember_occupancies = [[1,0,1],[0,1,1]]` and
`site_multiplicities = [[3,3,2],[3,3,2]]`; the occupancy columns are in
first-seen order (`Mg_A` before `Fe_A`, although `Fe` sorts before `Mg`
alphabetically). -/
theorem c2_pyrope_almandine_parse :
    process_solution_chemistry ["[Mg]3[Al]2Si3O12", "[Fe]3[Al]2Si3O12"] =
      .ok { solution_formulae := [[("Mg", 3), ("Al", 2)], [("Fe", 3), ("Al", 2)]]
            n_sites := 2
            sites := [["Mg", "Fe"], ["Al"]]
            site_names := ["Mg_A", "Fe_A", "Al_B"]
            n_occupancies := 3
            site_multiplicities := [[3, 3, 2], [3, 3, 2]]
            endmember_occupancies := [[1, 0, 1], [0, 1, 1]]
            endmember_noccupancies := [[3, 0, 2], [0, 3, 2]] } := by
  with_unfolding_all rfl

/-- C5: `process_solution_chemistry` takes `n_sites` from the number of
`'['` groups of the first formula, and a list in which any formula has a
different number of groups fails immediately with the site-count error (no
partial result — the check precedes all parsing). -/
theorem c5_site_count_mismatch_fatal (formulas : List String) (f0 : String)
    (h0 : formulas.head? = some f0) :
    ((∃ f ∈ formulas, countBrackets f ≠ countBrackets f0) →
      process_solution_chemistry formulas = .error siteCountMsg) ∧
    (∀ r, process_solution_chemistry formulas = .ok r → r.n_sites = countBrackets f0) := by
  cases formulas with
  | nil => simp at h0
  | cons g rest =>
    simp only [List.head?_cons, Option.some.injEq] at h0
    subst h0
    constructor
    · rintro ⟨f, hf, hne⟩
      have hall : ¬ ((g :: rest).all fun f => countBrackets f = countBrackets g) := by
        simp only [List.all_eq_true, decide_eq_true_eq]
        intro h
        exact hne (h f hf)
      simp only [process_solution_chemistry]
      rw [if_pos hall]
    · intro r hr
      simp only [process_solution_chemistry] at hr
      split at hr
      · simp at hr
      · split at hr
        · simp at hr
        · split at hr
          · simp at hr
          · rw [Except.ok.injEq] at hr
            rw [← hr]

/-- Witness for C5 at a concrete mismatching pair of formulas. -/
theorem c5_site_count_mismatch_fatal_witness :
    (["[Mg]3", "[Fe]2[Al]"] : List String).head? = some "[Mg]3" ∧
    process_solution_chemistry ["[Mg]3", "[Fe]2[Al]"] = .error siteCountMsg := by
  refine ⟨rfl, ?_⟩
  exact (c5_site_count_mismatch_fatal ["[Mg]3", "[Fe]2[Al]"] "[Mg]3" rfl).1
    ⟨"[Fe]2[Al]", by simp, by decide⟩

theorem IUPAC_nodup : IUPAC_element_order.Nodup := by decide

/-- The `assert` of `sort_element_list_to_IUPAC_order` succeeds exactly on
duplicate-free sublists of the canonical table: the built list is the
canonical-order elements present in the input, each at most once, so its
length matches the input's only in that case. -/
theorem sorted_length_eq_iff (l : List String) :
    ((IUPAC_element_order.filter fun e => l.contains e).length = l.length) ↔
      (l.Nodup ∧ ∀ e ∈ l, e ∈ IUPAC_element_order) := by
  have hFnd : (IUPAC_element_order.filter fun e => l.contains e).Nodup :=
    IUPAC_nodup.filter _
  have hset : (IUPAC_element_order.filter fun e => l.contains e).toFinset
      = IUPAC_element_order.toFinset ∩ l.toFinset := by
    ext x
    simp [List.mem_filter, List.elem_iff]
  have hlen : (IUPAC_element_order.filter fun e => l.contains e).length
      = (IUPAC_element_order.toFinset ∩ l.toFinset).card := by
    rw [← hset, List.toFinset_card_of_nodup hFnd]
  have h1 : (IUPAC_element_order.toFinset ∩ l.toFinset).card ≤ l.toFinset.card :=
    Finset.card_le_card Finset.inter_subset_right
  have h2 : l.toFinset.card ≤ l.length := l.toFinset_card_le
  constructor
  · intro h
    rw [hlen] at h
    have e2 : l.toFinset.card = l.length := le_antisymm h2 (by omega)
    have hnd : l.Nodup := by
      rw [List.card_toFinset] at e2
      exact List.dedup_eq_self.mp ((l.dedup_sublist).eq_of_length e2)
    refine ⟨hnd, fun e he => ?_⟩
    have heur : IUPAC_element_order.toFinset ∩ l.toFinset = l.toFinset := by
      apply Finset.eq_of_subset_of_card_le Finset.inter_subset_right
      omega
    have : e ∈ IUPAC_element_order.toFinset ∩ l.toFinset := by
      rw [heur]
      simpa using he
    simpa using (Finset.mem_inter.mp this).1
  · rintro ⟨hnd, hsub⟩
    rw [hlen]
    have : IUPAC_element_order.toFinset ∩ l.toFinset = l.toFinset :=
      Finset.inter_eq_right.mpr (by
        intro x hx
        simp only [List.mem_toFinset] at hx ⊢
        exact hsub x hx)
    rw [this, List.toFinset_card_of_nodup hnd]

/-- C9: `sort_element_list_to_IUPAC_order` raises its `AssertionError` for
every input containing a duplicated symbol or a symbol outside
`IUPAC_element_order` (the built canonical-order list is then shorter than
the input), and for every duplicate-free subset of the table it returns
exactly that set of symbols in canonical (table-filter) order. -/
theorem c9_sort_element_list (element_list : List String) :
    ((¬ element_list.Nodup ∨ ∃ e ∈ element_list, e ∉ IUPAC_element_order) →
      sort_element_list_to_IUPAC_order element_list =
        .error "AssertionError: sorted list differs in length from the input") ∧
    (element_list.Nodup → (∀ e ∈ element_list, e ∈ IUPAC_element_order) →
      sort_element_list_to_IUPAC_order element_list =
        .ok (IUPAC_element_order.filter fun e => element_list.contains e)) := by
  constructor
  · intro hbad
    have hne : (IUPAC_element_order.filter fun e => element_list.contains e).length
        ≠ element_list.length := by
      intro h
      rcases (sorted_length_eq_iff element_list).mp h with ⟨hnd, hsub⟩
      rcases hbad with h | ⟨e, he, hnot⟩
      · exact h hnd
      · exact hnot (hsub e he)
    simp only [sort_element_list_to_IUPAC_order]
    rw [if_neg hne]
  · intro hnd hsub
    have he : (IUPAC_element_order.filter fun e => element_list.contains e).length
        = element_list.length := (sorted_length_eq_iff element_list).mpr ⟨hnd, hsub⟩
    simp only [sort_element_list_to_IUPAC_order]
    rw [if_pos he]

/-- Witness for C9 at the spec's own example, `['O','Mg','Si']`, which the
canonical table reorders to `['Mg','Si','O']`. -/
theorem c9_sort_element_list_witness :
    (["O", "Mg", "Si"] : List String).Nodup ∧
    sort_element_list_to_IUPAC_order ["O", "Mg", "Si"] = .ok ["Mg", "Si", "O"] := by
  refine ⟨by decide, ?_⟩
  have h := (c9_sort_element_list ["O", "Mg", "Si"]).2 (by decide) (by decide)
  rw [h]
  rfl

theorem formula_mass_updateAdd (masses : String → Option ℚ) (f : Formula)
    (e : String) (v : ℚ) :
    formula_mass masses (updateAdd f e v) =
      Option.map₂ (fun m s => v * m + s) (masses e) (formula_mass masses f) := by
  induction f with
  | nil =>
    simp only [updateAdd, formula_mass]
    rcases masses e with _ | m <;> simp [formula_mass]
  | cons p rest ih =>
    obtain ⟨k, w⟩ := p
    by_cases hk : k = e
    · subst hk
      simp only [updateAdd, if_pos rfl, formula_mass]
      rcases masses k with _ | m <;> rcases hrest : formula_mass masses rest with _ | s <;>
        simp [formula_mass, hrest] <;> ring
    · simp only [updateAdd, if_neg hk, formula_mass, ih]
      rcases masses k with _ | m <;> rcases masses e with _ | m' <;>
        rcases hrest : formula_mass masses rest with _ | s <;>
        simp [formula_mass, hrest] <;> ring

theorem formula_mass_counterUpdate (masses : String → Option ℚ) (f acc : Formula) :
    formula_mass masses (counterUpdate acc f) =
      Option.map₂ (· + ·) (formula_mass masses acc) (formula_mass masses f) := by
  induction f generalizing acc with
  | nil =>
    simp only [counterUpdate, List.foldl_nil, formula_mass]
    rcases formula_mass masses acc with _ | s <;> simp
  | cons p rest ih =>
    simp only [counterUpdate, List.foldl_cons] at ih ⊢
    rw [ih, formula_mass_updateAdd]
    simp only [formula_mass]
    rcases masses p.1 with _ | m <;> rcases formula_mass masses acc with _ | s <;>
      rcases hrest : formula_mass masses rest with _ | s' <;> simp [hrest] <;> ring

theorem formula_mass_scaleOne (masses : String → Option ℚ) (f : Formula) :
    formula_mass masses (f.map fun p => (p.1, (1 : ℚ) * p.2)) = formula_mass masses f := by
  induction f with
  | nil => rfl
  | cons p rest ih => simp [formula_mass, ih]

/-- C7: `formula_mass` is additive over an unweighted `sum_formulae` — for
formulas whose elements all have masses (both `formula_mass` calls
succeed), the mass of the default-weight sum of two formulas is the sum of
their masses. -/
theorem c7_formula_mass_additive (masses : String → Option ℚ) (f1 f2 : Formula)
    (m1 m2 : ℚ) (h1 : formula_mass masses f1 = some m1)
    (h2 : formula_mass masses f2 = some m2) :
    (sum_formulae [f1, f2] none).bind (formula_mass masses) = some (m1 + m2) := by
  simp only [sum_formulae, List.map_cons, List.map_nil, List.foldl_cons, List.foldl_nil,
    Option.some_bind]
  rw [formula_mass_counterUpdate, formula_mass_counterUpdate, formula_mass_scaleOne,
    formula_mass_scaleOne, h1, h2]
  simp [formula_mass]

/-- Witness for C7 on MgO + SiO2 with a concrete mass table. -/
theorem c7_formula_mass_additive_witness :
    formula_mass sampleMasses [("Mg", 1), ("O", 1)] = some (40304 / 1000) ∧
    formula_mass sampleMasses [("Si", 1), ("O", 2)] = some (60083 / 1000) ∧
    (sum_formulae [[("Mg", 1), ("O", 1)], [("Si", 1), ("O", 2)]] none).bind
      (formula_mass sampleMasses) = some (40304 / 1000 + 60083 / 1000) := by
  refine ⟨by with_unfolding_all rfl, by with_unfolding_all rfl, ?_⟩
  exact c7_formula_mass_additive sampleMasses _ _ _ _ (by with_unfolding_all rfl)
    (by with_unfolding_all rfl)

/-- C6 counterexample — the claim says every rejected `site_multiplicities`
shape produces a message naming the mismatched dimensions.  A 1D array of
length 4 against 2 sites and 3 occupancy columns is rejected with the fixed
per-site/per-species sentence, which contains no digit at all, so it names
no dimensions. -/
theorem c6_one_d_mismatch_message_names_no_dimensions :
    site_occupancies_to_strings [["Mg", "Fe"], ["Al"]] (.oneD [3, 3, 2, 4]) [[1, 0, 1]]
      = .error multMsg1 ∧
    multMsg1.data.all (fun c => !isDigit09 c) = true := by
  exact ⟨by with_unfolding_all rfl, by decide⟩

/-- The renderer in its accepted 2D form. -/
theorem sots_twoD_ok (names : List (List String)) (m occ : List (List ℚ))
    (h : shape2 m = shape2 occ) :
    site_occupancies_to_strings names (.twoD m) occ =
      .ok (occ.enum.map fun p => renderSitesGo names p.2 (m.getD p.1 []) 0) := by
  simp only [site_occupancies_to_strings]
  rw [if_neg (by simp [h])]
  rfl

/-- C6 (amended): exactly the three shapes are accepted — 1D per-site, 1D
per-species, or a 2D matrix of `endmember_occupancies`'s shape — and the
rejection message names the mismatched dimensions in the 2D case (the
shapes are embedded in the message); the 1D-mismatch message is a fixed
sentence (see the counterexample). -/
theorem c6_shape_acceptance (names : List (List String)) (marg : SiteMultArg)
    (occ : List (List ℚ)) (hocc : occ ≠ []) :
    ((site_occupancies_to_strings names marg occ).isOk = true ↔
      (∃ v, marg = .oneD v ∧
        (names.length = v.length ∨ (occ.headD []).length = v.length)) ∨
      (∃ m, marg = .twoD m ∧ shape2 m = shape2 occ)) ∧
    (∀ m, marg = .twoD m → shape2 m ≠ shape2 occ →
      site_occupancies_to_strings names marg occ =
        .error (multMsg2 (shape2 m) (shape2 occ)) ∧
      (shapeStr (shape2 m)).data <:+: (multMsg2 (shape2 m) (shape2 occ)).data ∧
      (shapeStr (shape2 occ)).data <:+: (multMsg2 (shape2 m) (shape2 occ)).data) := by
  obtain ⟨r0, rest, rfl⟩ : ∃ r0 rest, occ = r0 :: rest := by
    cases occ with
    | nil => exact absurd rfl hocc
    | cons a l => exact ⟨a, l, rfl⟩
  constructor
  · cases marg with
    | oneD v =>
      simp only [site_occupancies_to_strings]
      by_cases h1 : names.length = v.length
      · rw [if_pos h1]
        exact iff_of_true rfl (Or.inl ⟨v, rfl, Or.inl h1⟩)
      · rw [if_neg h1]
        by_cases h2 : r0.length = v.length
        · rw [if_neg (by simpa using h2)]
          exact iff_of_true rfl (Or.inl ⟨v, rfl, Or.inr h2⟩)
        · rw [if_pos (by simpa using h2)]
          refine iff_of_false (fun h => Bool.noConfusion h) ?_
          rintro (⟨v', hv, hlen⟩ | ⟨m, hm, _⟩)
          · obtain rfl : v = v' := by injection hv
            rcases hlen with h | h
            · exact h1 h
            · exact h2 h
          · exact SiteMultArg.noConfusion hm
    | twoD m =>
      by_cases h : shape2 m = shape2 (r0 :: rest)
      · rw [sots_twoD_ok _ _ _ h]
        exact iff_of_true rfl (Or.inr ⟨m, rfl, h⟩)
      · simp only [site_occupancies_to_strings]
        rw [if_pos (by simpa using h)]
        refine iff_of_false (fun hx => Bool.noConfusion hx) ?_
        rintro (⟨v', hv, _⟩ | ⟨m', hm, hsh⟩)
        · exact SiteMultArg.noConfusion hv
        · obtain rfl : m = m' := by injection hm
          exact h hsh
    | otherRank =>
      refine iff_of_false (fun hx => Bool.noConfusion hx) ?_
      rintro (⟨v', hv, _⟩ | ⟨m', hm, _⟩)
      · exact SiteMultArg.noConfusion hv
      · exact SiteMultArg.noConfusion hm
  · rintro m rfl hne
    refine ⟨?_, ?_, ?_⟩
    · simp only [site_occupancies_to_strings]
      rw [if_pos (by simpa using hne)]
      rfl
    · have h := List.infix_append multMsg2Head.data (shapeStr (shape2 m)).data
        ((" and " : String).data ++ (shapeStr (shape2 (r0 :: rest))).data ++
          ("." : String).data)
      simpa [multMsg2, String.data_append, List.append_assoc] using h
    · have h := List.infix_append
        (multMsg2Head.data ++ (shapeStr (shape2 m)).data ++ (" and " : String).data)
        (shapeStr (shape2 (r0 :: rest))).data (("." : String).data)
      simpa [multMsg2, String.data_append, List.append_assoc] using h

/-- Witness for C6 at a concrete accepted 2D input. -/
theorem c6_shape_acceptance_witness :
    ([[1, 0, 1]] : List (List ℚ)) ≠ [] ∧
    (((site_occupancies_to_strings [["Mg", "Fe"], ["Al"]]
        (.twoD [[3, 9, 2]]) [[1, 0, 1]]).isOk = true ↔
      (∃ v, SiteMultArg.twoD [[3, 9, 2]] = .oneD v ∧
        (([["Mg", "Fe"], ["Al"]] : List (List String)).length = v.length ∨
          (([[1, 0, 1]] : List (List ℚ)).headD []).length = v.length)) ∨
      (∃ m, SiteMultArg.twoD [[3, 9, 2]] = .twoD m ∧
        shape2 m = shape2 [[1, 0, 1]])) ∧
    (∀ m, SiteMultArg.twoD [[3, 9, 2]] = .twoD m → shape2 m ≠ shape2 [[1, 0, 1]] →
      site_occupancies_to_strings [["Mg", "Fe"], ["Al"]]
          (.twoD [[3, 9, 2]]) [[1, 0, 1]] =
        .error (multMsg2 (shape2 m) (shape2 [[1, 0, 1]])) ∧
      (shapeStr (shape2 m)).data <:+: (multMsg2 (shape2 m) (shape2 [[1, 0, 1]])).data ∧
      (shapeStr (shape2 [[1, 0, 1]])).data <:+:
        (multMsg2 (shape2 m) (shape2 [[1, 0, 1]])).data)) :=
  ⟨by decide, c6_shape_acceptance [["Mg", "Fe"], ["Al"]] (.twoD [[3, 9, 2]])
    [[1, 0, 1]] (by decide)⟩

/-- Cumulative species count of the first `k` sites: the index of site
`k`'s first occupancy column. -/
def sumTake (names : List (List String)) (k : ℕ) : ℕ :=
  ((names.take k).map List.length).sum

/-- The rendering loop reads its multiplicity row only at each site's
first occupancy column. -/
theorem renderSitesGo_congr (names : List (List String)) (mbrOcc m m' : List ℚ)
    (i : ℕ)
    (h : ∀ k, k < names.length →
      m.getD (i + sumTake names k) 0 = m'.getD (i + sumTake names k) 0) :
    renderSitesGo names mbrOcc m i = renderSitesGo names mbrOcc m' i := by
  induction names generalizing i with
  | nil => rfl
  | cons site rest ih =>
    have h0 := h 0 (Nat.succ_pos _)
    simp only [sumTake, List.take_zero, List.map_nil, List.sum_nil, Nat.add_zero] at h0
    simp only [renderSitesGo, h0]
    congr 1
    refine ih (i + site.length) fun k hk => ?_
    have hk1 := h (k + 1) (by simpa using hk)
    simp only [sumTake, List.take_succ_cons, List.map_cons, List.sum_cons] at hk1
    simpa [sumTake, Nat.add_assoc] using hk1

/-- C10: with a full 2D `site_multiplicities`, the rendered multiplicity of
each endmember's site comes only from that site's first occupancy column;
two 2D inputs agreeing on those columns (whatever their other columns hold)
render identically. -/
theorem c10_two_d_multiplicities_first_column (names : List (List String))
    (occ m m' : List (List ℚ))
    (hshape : shape2 m = shape2 occ) (hshape' : shape2 m' = shape2 occ)
    (hfirst : ∀ j, j < occ.length → ∀ k, k < names.length →
      (m.getD j []).getD (sumTake names k) 0 = (m'.getD j []).getD (sumTake names k) 0) :
    site_occupancies_to_strings names (.twoD m) occ =
      site_occupancies_to_strings names (.twoD m') occ := by
  rw [sots_twoD_ok _ _ _ hshape, sots_twoD_ok _ _ _ hshape']
  congr 1
  refine List.map_congr_left fun p hp => ?_
  have hj : p.1 < occ.length := by
    have := List.fst_lt_of_mem_enum hp
    simpa using this
  refine renderSitesGo_congr _ _ _ _ _ fun k hk => ?_
  simpa using hfirst p.1 hj k hk

/-- Witness for C10: the two multiplicity matrices differ in the middle
column (site A's second species) yet render the same strings. -/
theorem c10_two_d_multiplicities_first_column_witness :
    shape2 [[3, 9, 2]] = shape2 [[1, 0, 1]] ∧
    shape2 [[3, 7, 2]] = shape2 [[1, 0, 1]] ∧
    site_occupancies_to_strings [["Mg", "Fe"], ["Al"]] (.twoD [[3, 9, 2]]) [[1, 0, 1]] =
      site_occupancies_to_strings [["Mg", "Fe"], ["Al"]] (.twoD [[3, 7, 2]]) [[1, 0, 1]] := by
  refine ⟨by decide, by decide, ?_⟩
  refine c10_two_d_multiplicities_first_column [["Mg", "Fe"], ["Al"]] [[1, 0, 1]]
    [[3, 9, 2]] [[3, 7, 2]] (by decide) (by decide) ?_
  intro j hj k hk
  simp only [List.length_cons, List.length_nil] at hj hk
  interval_cases j <;> interval_cases k <;> with_unfolding_all rfl

/-- Rounding to 10 decimal places snaps any value strictly within half an
ulp (`5e-11`) of a 10-decimal value `k/10^10` to that value; the tie rule
never engages. -/
theorem np_around10_snap (q : ℚ) (k : ℤ)
    (h : |q - (k : ℚ) / 10 ^ 10| < 5 / 10 ^ 11) :
    np_around10 q = (k : ℚ) / 10 ^ 10 := by
  have h10 : |q * 10 ^ 10 - (k : ℚ)| < 1 / 2 := by
    have heq : q * 10 ^ 10 - (k : ℚ) = (q - (k : ℚ) / 10 ^ 10) * 10 ^ 10 := by ring
    rw [heq, abs_mul, abs_of_pos (by positivity : (0 : ℚ) < 10 ^ 10)]
    calc |q - (k : ℚ) / 10 ^ 10| * 10 ^ 10
        < (5 / 10 ^ 11) * 10 ^ 10 := by
          exact mul_lt_mul_of_pos_right h (by positivity)
      _ = 1 / 2 := by norm_num
  rw [abs_lt] at h10
  have hround : roundHalfEven (q * 10 ^ 10) = k := by
    set x := q * 10 ^ 10 with hx
    unfold roundHalfEven
    by_cases hk : (k : ℚ) ≤ x
    · have hf : ⌊x⌋ = k := by
        rw [Int.floor_eq_iff]
        exact ⟨hk, by push_cast; linarith [h10.2]⟩
      rw [hf, if_pos (by push_cast; linarith [h10.2])]
    · push_neg at hk
      have hf : ⌊x⌋ = k - 1 := by
        rw [Int.floor_eq_iff]
        constructor
        · push_cast
          linarith [h10.1]
        · push_cast
          linarith
      rw [hf, if_neg (by push_cast; linarith [h10.1]), if_pos (by push_cast; linarith [h10.1])]
      omega
  unfold np_around10
  rw [hround]

/-- C8: `chemical_potentials` rounds the least-squares coefficients to 10
decimal places (`np.around(p[0], 10)`) before the dot product with the
endmember potentials: every successful result is the dot product of the
`np_around10`-rounded proportion rows with the potentials, and any
coefficient strictly within `5e-11` of a 10-decimal value is snapped to it
(so coefficients of magnitude below `5e-11` are snapped to zero and
contribute nothing). -/
theorem c8_proportions_rounded :
    (∀ assemblage component_formulae res,
      chemical_potentials assemblage component_formulae = .ok res →
      ∃ ec cc p,
        ordered_compositional_array (endmemberFormulaeOf assemblage)
          (discoverElements (endmemberFormulaeOf assemblage)) = .ok ec ∧
        ordered_compositional_array component_formulae
          (discoverElements (endmemberFormulaeOf assemblage)) = .ok cc ∧
        np_linalg_lstsq (transposeQ ec) cc = some p ∧
        res = p.1.map fun r =>
          dotQ (r.map np_around10) (endmemberPotentialsOf assemblage)) ∧
    (∀ (q : ℚ) (k : ℤ), |q - (k : ℚ) / 10 ^ 10| < 5 / 10 ^ 11 →
      np_around10 q = (k : ℚ) / 10 ^ 10) := by
  constructor
  · intro assemblage component_formulae res hr
    simp only [chemical_potentials] at hr
    split at hr
    · simp at hr
    · split at hr
      · simp at hr
      · split at hr
        · simp at hr
        · split at hr
          · simp at hr
          · split at hr
            · simp at hr
            · split at hr
              · simp at hr
              · rw [Except.ok.injEq] at hr
                rename_i x1 ec hec x2 mn hmn hlt x3 cc hcc x4 p hp hres
                refine ⟨ec, cc, p, hec, hcc, hp, ?_⟩
                rw [← hr, List.map_map]
                rfl
  · exact np_around10_snap

/-- Witness for C8: a concrete successful call, and a concrete snap —
`3e-11` rounds to exactly `0`. -/
theorem c8_proportions_rounded_witness :
    (∃ ec cc p,
        ordered_compositional_array
          (endmemberFormulaeOf [.mineral [("Mg", 1), ("O", 1)] (-100)])
          (discoverElements (endmemberFormulaeOf
            [.mineral [("Mg", 1), ("O", 1)] (-100)])) = .ok ec ∧
        ordered_compositional_array [[("Mg", 1), ("O", 1)]]
          (discoverElements (endmemberFormulaeOf
            [.mineral [("Mg", 1), ("O", 1)] (-100)])) = .ok cc ∧
        np_linalg_lstsq (transposeQ ec) cc = some p ∧
        [(-100 : ℚ)] = p.1.map fun r =>
          dotQ (r.map np_around10)
            (endmemberPotentialsOf [.mineral [("Mg", 1), ("O", 1)] (-100)])) ∧
    |(3 : ℚ) / 10 ^ 11 - ((0 : ℤ) : ℚ) / 10 ^ 10| < 5 / 10 ^ 11 ∧
    np_around10 (3 / 10 ^ 11) = ((0 : ℤ) : ℚ) / 10 ^ 10 := by
  refine ⟨?_, by rw [show ((0:ℤ):ℚ) / 10 ^ 10 = 0 by norm_num, sub_zero, abs_of_pos (by norm_num : (0:ℚ) < 3 / 10 ^ 11)]; norm_num, ?_⟩
  · exact c8_proportions_rounded.1 [.mineral [("Mg", 1), ("O", 1)] (-100)]
      [[("Mg", 1), ("O", 1)]] [(-100 : ℚ)] (by with_unfolding_all rfl)
  · exact c8_proportions_rounded.2 (3 / 10 ^ 11) 0 (by
      rw [show ((0:ℤ):ℚ) / 10 ^ 10 = 0 by norm_num, sub_zero,
        abs_of_pos (by norm_num : (0:ℚ) < 3 / 10 ^ 11)]
      norm_num)

/-- C4 counterexample — the claim says every component that is not a linear
combination of the assemblage's endmember compositions raises.  The
component `Mg O Si(1e-6)` is not in the span of `{MgO, SiO2}` (its exact
least-squares residual is `2/3 * 1e-12`), yet that residual is below the
`1e-10` gate, so `chemical_potentials` returns a potential instead of
raising. -/
theorem c4_small_residual_component_accepted :
    (¬ ∃ a b : ℚ, ∀ e : String,
        a * amt [("Mg", 1), ("O", 1)] e + b * amt [("Si", 1), ("O", 2)] e =
          amt [("Mg", 1), ("O", 1), ("Si", 1 / 1000000)] e) ∧
    chemical_potentials
        [.mineral [("Mg", 1), ("O", 1)] (-100), .mineral [("Si", 1), ("O", 2)] (-200)]
        [[("Mg", 1), ("O", 1), ("Si", 1 / 1000000)]] =
      .ok [(-10000003333 : ℚ) / 100000000] := by
  constructor
  · rintro ⟨a, b, h⟩
    have hMg := h "Mg"
    have hSi := h "Si"
    have hO := h "O"
    rw [show amt [("Mg", 1), ("O", 1)] "Mg" = 1 from by with_unfolding_all rfl,
      show amt [("Si", 1), ("O", 2)] "Mg" = 0 from by with_unfolding_all rfl,
      show amt [("Mg", 1), ("O", 1), ("Si", 1 / 1000000)] "Mg" = 1 from by
        with_unfolding_all rfl] at hMg
    rw [show amt [("Mg", 1), ("O", 1)] "Si" = 0 from by with_unfolding_all rfl,
      show amt [("Si", 1), ("O", 2)] "Si" = 1 from by with_unfolding_all rfl,
      show amt [("Mg", 1), ("O", 1), ("Si", 1 / 1000000)] "Si" = 1 / 1000000 from by
        with_unfolding_all rfl] at hSi
    rw [show amt [("Mg", 1), ("O", 1)] "O" = 1 from by with_unfolding_all rfl,
      show amt [("Si", 1), ("O", 2)] "O" = 2 from by with_unfolding_all rfl,
      show amt [("Mg", 1), ("O", 1), ("Si", 1 / 1000000)] "O" = 1 from by
        with_unfolding_all rfl] at hO
    have ha : a = 1 := by linarith
    have hb : b = 1 / 1000000 := by linarith
    rw [ha, hb] at hO
    norm_num at hO
  · with_unfolding_all rfl

/-- C4 (amended): `chemical_potentials` raises rather than returning a
potential in two distinct ways — a component containing an element absent
from the assemblage's element list is rejected by the element-membership
assertion inside `ordered_compositional_array` (this is what rejects
Al2O3 against `{MgO, SiO2}`), while a component whose elements are all
present is rejected precisely when its least-squares residual fails the
strict `1e-10` gate; a nonzero residual at or below the gate is accepted
(see the counterexample). -/
theorem c4_rejection_paths :
    (∀ assemblage component_formulae f,
      f ∈ component_formulae →
      (∃ p ∈ f, p.1 ∉ discoverElements (endmemberFormulaeOf assemblage)) →
      (chemical_potentials assemblage component_formulae).isOk = false) ∧
    (∀ assemblage component_formulae ec cc p,
      ordered_compositional_array (endmemberFormulaeOf assemblage)
        (discoverElements (endmemberFormulaeOf assemblage)) = .ok ec →
      ordered_compositional_array component_formulae
        (discoverElements (endmemberFormulaeOf assemblage)) = .ok cc →
      np_linalg_lstsq (transposeQ ec) cc = some p →
      (∃ r ∈ p.2, ¬ (r < 1 / 10 ^ 10)) →
      chemical_potentials assemblage component_formulae = .error residualMsg ∨
      chemical_potentials assemblage component_formulae = .error luCheckMsg ∨
      chemical_potentials assemblage component_formulae =
        .error "ValueError: min of an empty sequence") := by
  constructor
  · rintro assemblage component_formulae f hf ⟨p, hp, hnot⟩
    rcases hres : chemical_potentials assemblage component_formulae with msg | res
    · rfl
    · exfalso
      simp only [chemical_potentials] at hres
      split at hres
      · simp at hres
      · split at hres
        · simp at hres
        · split at hres
          · simp at hres
          · split at hres
            · simp at hres
            · split at hres
              · simp at hres
              · split at hres
                · simp at hres
                · rename_i x1 ec hec x2 mn hmn hlt x3 cc hcc x4 pr hpr hall
                  exact hnot (ordered_array_keys _ _ _ hcc f hf p hp)
  · rintro assemblage component_formulae ec cc p hec hcc hp ⟨r, hr, hge⟩
    rcases hmn : ((luU ec).map fun rw => (rw.map fun x => x * x).sum).min? with _ | mn
    · right; right
      simp only [chemical_potentials, hec, hmn]
    · by_cases hlt : 1 / 10 ^ 6 < mn
      · left
        simp only [chemical_potentials, hec, hmn, hcc, hp]
        rw [if_neg (by simpa using hlt), if_pos ?_]
        simp only [List.all_eq_true, decide_eq_true_eq, not_forall]
        exact ⟨r, hr, fun h => hge h⟩
      · right; left
        simp only [chemical_potentials, hec, hmn]
        rw [if_pos (by simpa using hlt)]

/-- Witness for C4 at the spec's own example: component Al2O3 against the
assemblage `{MgO, SiO2}` is rejected (by the element-membership assertion,
since Al is not among the assemblage's elements). -/
theorem c4_rejection_paths_witness :
    (([("Al", 2), ("O", 3)] : Formula) ∈ [[("Al", (2 : ℚ)), ("O", 3)]]) ∧
    (chemical_potentials
      [.mineral [("Mg", 1), ("O", 1)] (-100), .mineral [("Si", 1), ("O", 2)] (-200)]
      [[("Al", 2), ("O", 3)]]).isOk = false := by
  refine ⟨List.mem_cons_self _ _, ?_⟩
  refine c4_rejection_paths.1 _ _ [("Al", 2), ("O", 3)] (List.mem_cons_self _ _) ?_
  refine ⟨("Al", 2), List.mem_cons_self _ _, ?_⟩
  with_unfolding_all decide

/-- Witness for the amended C3 at `"[Mg1/2Fe1/2]3[Al]2"`: a mixed site with
fractional occupancies and a pure site, all thresholds satisfied. -/
theorem c3_parse_render_round_trip_witness :
    (splitOnChar '[' "[Mg1/2Fe1/2]3[Al]2".data).drop 1
      = ["Mg1/2Fe1/2]3".data, "Al]2".data] ∧
    (∃ (P P' : SolutionChemistry) (r : String),
      process_solution_chemistry ["[Mg1/2Fe1/2]3[Al]2"] = .ok P ∧
      site_occupancies_to_strings P.sites (.twoD P.site_multiplicities)
        P.endmember_occupancies = .ok [r] ∧
      process_solution_chemistry [r] = .ok P' ∧
      ∀ e, amt (P'.solution_formulae.headD []) e =
        amt (P.solution_formulae.headD []) e) := by
  refine ⟨by with_unfolding_all rfl,
    c3_parse_render_round_trip "[Mg1/2Fe1/2]3[Al]2"
      ["Mg1/2Fe1/2]3".data, "Al]2".data]
      (by with_unfolding_all rfl) ?_ (by decide) ?_ ?_ ?_⟩
  · intro c hc
    rcases List.mem_cons.mp hc with rfl | hc2
    · refine ⟨⟨by decide, Or.inr (by with_unfolding_all rfl), ?_⟩, ?_⟩
      · intro t ht
        rw [show chunkTokens ("Mg1/2Fe1/2]3".data)
            = ["Mg1/2".data, "Fe1/2".data] from by with_unfolding_all rfl] at ht
        rcases List.mem_cons.mp ht with rfl | ht2
        · with_unfolding_all rfl
        rcases List.mem_cons.mp ht2 with rfl | ht3
        · with_unfolding_all rfl
        · simp at ht3
      · rw [show chunkNames ("Mg1/2Fe1/2]3".data) = ["Mg", "Fe"] from by
          with_unfolding_all rfl]
        decide
    rcases List.mem_cons.mp hc2 with rfl | hc3
    · refine ⟨⟨by decide, Or.inr (by with_unfolding_all rfl), ?_⟩, ?_⟩
      · intro t ht
        rw [show chunkTokens ("Al]2".data) = ["Al".data] from by
          with_unfolding_all rfl] at ht
        rcases List.mem_cons.mp ht with rfl | ht2
        · with_unfolding_all rfl
        · simp at ht2
      · rw [show chunkNames ("Al]2".data) = ["Al"] from by with_unfolding_all rfl]
        decide
    · simp at hc3
  · intro c hc
    rcases List.mem_cons.mp hc with rfl | hc2
    · with_unfolding_all rfl
    rcases List.mem_cons.mp hc2 with rfl | hc3
    · with_unfolding_all rfl
    · simp at hc3
  · intro c hc
    rcases List.mem_cons.mp hc with rfl | hc2
    · rw [show chunkProps ("Mg1/2Fe1/2]3".data) = [1/2, 1/2] from by
        with_unfolding_all rfl]
      intro p hp
      rcases List.mem_cons.mp hp with rfl | hp2
      · refine Or.inr (Or.inr ⟨by norm_num, by norm_num⟩)
      rcases List.mem_cons.mp hp2 with rfl | hp3
      · refine Or.inr (Or.inr ⟨by norm_num, by norm_num⟩)
      · simp at hp3
    rcases List.mem_cons.mp hc2 with rfl | hc3
    · rw [show chunkProps ("Al]2".data) = [1] from by with_unfolding_all rfl]
      intro p hp
      rcases List.mem_cons.mp hp with rfl | hp2
      · exact Or.inr (Or.inl rfl)
      · simp at hp2
    · simp at hc3
  · intro c hc
    rcases List.mem_cons.mp hc with rfl | hc2
    · refine Or.inr ?_
      rw [show chunkMult ("Mg1/2Fe1/2]3".data) = 3 from by with_unfolding_all rfl,
        show |(3 : ℚ) - 1| = 2 from by norm_num]
      norm_num
    rcases List.mem_cons.mp hc2 with rfl | hc3
    · refine Or.inr ?_
      rw [show chunkMult ("Al]2".data) = 2 from by with_unfolding_all rfl,
        show |(2 : ℚ) - 1| = 1 from by norm_num]
      norm_num
    · simp at hc3

/-- Spec-modelled definition (NOT from the source): the bulk composition a
site-formula string denotes according to the specification's grammar —
each bracketed site contributes every species' amount scaled by the site
multiplicity, and the post-site element text before the next `'['` or the
string end is parsed as ordinary elements-with-amounts and added directly.
Used only to state the failure of the original round-trip claim. -/
def specStringBulk (S : String) : Formula :=
  ((splitOnChar '[' S.data).drop 1).foldl
    (fun f chunk =>
      (findUpperTokens ((chunkTail chunk).dropWhile fun c => !isUpperAZ c)).foldl
        (fun f t => updateAdd f (speciesName t) (propD t))
        (chunkBulkFold chunk f))
    []

/-- Counterexample to the original C3: for `"[Mg]3[Al]2Si3O12"` the parse /
render / reparse chain succeeds but yields the bulk `{Mg: 3, Al: 2}`, which
is not a rescaling of the string's spec-mandated element proportions
`{Mg: 3, Al: 2, Si: 3, O: 12}` (the post-site `Si3O12` is lost). -/
theorem c3_original_claim_fails :
    ∃ (P P' : SolutionChemistry) (r : String),
      process_solution_chemistry ["[Mg]3[Al]2Si3O12"] = .ok P ∧
      site_occupancies_to_strings P.sites (.twoD P.site_multiplicities)
        P.endmember_occupancies = .ok [r] ∧
      process_solution_chemistry [r] = .ok P' ∧
      ¬ ∃ k : ℚ, k ≠ 0 ∧ ∀ e, amt (P'.solution_formulae.headD []) e
          = k * amt (specStringBulk "[Mg]3[Al]2Si3O12") e := by
  have hokMg : chunkOk ("Mg]3".data) ∧ (chunkNames ("Mg]3".data)).Nodup := by
    refine ⟨⟨by decide, Or.inr (by with_unfolding_all rfl), ?_⟩, ?_⟩
    · intro t ht
      rw [show chunkTokens ("Mg]3".data) = ["Mg".data] from by
        with_unfolding_all rfl] at ht
      rcases List.mem_cons.mp ht with rfl | ht2
      · with_unfolding_all rfl
      · simp at ht2
    · rw [show chunkNames ("Mg]3".data) = ["Mg"] from by with_unfolding_all rfl]
      decide
  have hokAl : chunkOk ("Al]2Si3O12".data) ∧ (chunkNames ("Al]2Si3O12".data)).Nodup := by
    refine ⟨⟨by decide, Or.inr (by with_unfolding_all rfl), ?_⟩, ?_⟩
    · intro t ht
      rw [show chunkTokens ("Al]2Si3O12".data) = ["Al".data] from by
        with_unfolding_all rfl] at ht
      rcases List.mem_cons.mp ht with rfl | ht2
      · with_unfolding_all rfl
      · simp at ht2
    · rw [show chunkNames ("Al]2Si3O12".data) = ["Al"] from by with_unfolding_all rfl]
      decide
  have hP := process_single "[Mg]3[Al]2Si3O12" ["Mg]3".data, "Al]2Si3O12".data]
    (by with_unfolding_all rfl)
    (by
      intro c hc
      rcases List.mem_cons.mp hc with rfl | hc2
      · exact hokMg
      rcases List.mem_cons.mp hc2 with rfl | hc3
      · exact hokAl
      · simp at hc3)
    (by decide)
  have hr0 := sots_parse_render ["Mg]3".data, "Al]2Si3O12".data]
    (by
      intro c hc
      rcases List.mem_cons.mp hc with rfl | hc2
      · rw [show chunkNames ("Mg]3".data) = ["Mg"] from by with_unfolding_all rfl]
        simp
      rcases List.mem_cons.mp hc2 with rfl | hc3
      · rw [show chunkNames ("Al]2Si3O12".data) = ["Al"] from by
          with_unfolding_all rfl]
        simp
      · simp at hc3)
  have hrval : String.join ((["Mg]3".data, "Al]2Si3O12".data] : List (List Char)).map
      fun c => "[" ++ formula_to_string (pyDictOf ((chunkNames c).zip
          ((chunkProps c).map (· / (chunkProps c).sum)))) ++ "]"
        ++ (if |chunkMult c - 1| < 1 / 10 ^ 12 then ""
            else (ratStr (chunkMult c)).asString)) = "[Mg]3[Al]2" := by
    with_unfolding_all rfl
  rw [hrval] at hr0
  have hokMg' : chunkOk ("Mg]3".data) ∧ (chunkNames ("Mg]3".data)).Nodup := hokMg
  have hP' := process_single "[Mg]3[Al]2" ["Mg]3".data, "Al]2".data]
    (by with_unfolding_all rfl)
    (by
      intro c hc
      rcases List.mem_cons.mp hc with rfl | hc2
      · exact hokMg
      rcases List.mem_cons.mp hc2 with rfl | hc3
      · refine ⟨⟨by decide, Or.inr (by with_unfolding_all rfl), ?_⟩, ?_⟩
        · intro t ht
          rw [show chunkTokens ("Al]2".data) = ["Al".data] from by
            with_unfolding_all rfl] at ht
          rcases List.mem_cons.mp ht with rfl | ht2
          · with_unfolding_all rfl
          · simp at ht2
        · rw [show chunkNames ("Al]2".data) = ["Al"] from by with_unfolding_all rfl]
          decide
      · simp at hc3)
    (by decide)
  refine ⟨_, _, _, hP, hr0, hP', ?_⟩
  rintro ⟨k, hk0, hk⟩
  have h1 := hk "Mg"
  have h2 := hk "Si"
  simp only [List.headD_cons] at h1 h2
  rw [show amt (((["Mg]3".data, "Al]2".data] : List (List Char)).foldl
      (fun fo c => chunkBulkFold c fo) [])) "Mg" = 3 from by with_unfolding_all rfl,
    show amt (specStringBulk "[Mg]3[Al]2Si3O12") "Mg" = 3 from by
      with_unfolding_all rfl] at h1
  rw [show amt (((["Mg]3".data, "Al]2".data] : List (List Char)).foldl
      (fun fo c => chunkBulkFold c fo) [])) "Si" = 0 from by with_unfolding_all rfl,
    show amt (specStringBulk "[Mg]3[Al]2Si3O12") "Si" = 3 from by
      with_unfolding_all rfl] at h2
  have hk1 : k = 1 := by linarith
  rw [hk1] at h2
  norm_num at h2

end BurnmanChem
